import Mathlib

/-!
Shallow embedding of src/graphgen.py (an autoregressive graph generator) and
verification of the frozen claims about it.

Modelling conventions:
* Tensors of node / edge state vectors are lists over an abstract state type S
  (messages over M, pooled summaries over A).  Learned layers (torch.nn.Linear,
  GRUCell, Tanh stacks, embedding tables) are fields of the module structures,
  modelled as opaque-to-the-theorem functions: their weights are runtime data,
  so every theorem quantifies over them.
* Real-valued scalars (logits, losses, sigmoid scores) live in the exact reals;
  the value -inf produced by torch.where(mask, t, -inf) is modelled by the
  bottom element of WithBot Real.
* Random draws (the Gumbel noise of sample_softmax and the uniform draws of
  sample_binary) are passed in explicitly as functions from indices to Real,
  mirroring torch.rand_like: every theorem holds for every draw.
* Python while-loops become fuel-indexed recursion returning an Option;
  none means the fuel ran out (or an assertion fired / reference indexing
  raised), some is the value the Python code returns.
* uint8 tensor writes (.byte()) keep the explicit mod-256 arithmetic of the
  machine integers.
-/

namespace GraphGenModel

/-! ### Generic list helpers used by the embedding -/

/-- Map with the element index, starting at a given offset. -/
def mapWithIdx {α β : Type _} (f : ℕ → α → β) : ℕ → List α → List β
  | _, [] => []
  | k, a :: l => f k a :: mapWithIdx f (k + 1) l

@[simp] theorem mapWithIdx_nil {α β : Type _} (f : ℕ → α → β) (k : ℕ) :
    mapWithIdx f k [] = [] := rfl

@[simp] theorem mapWithIdx_cons {α β : Type _} (f : ℕ → α → β) (k : ℕ) (a : α) (l : List α) :
    mapWithIdx f k (a :: l) = f k a :: mapWithIdx f (k + 1) l := rfl

@[simp] theorem length_mapWithIdx {α β : Type _} (f : ℕ → α → β) :
    ∀ (k : ℕ) (l : List α), (mapWithIdx f k l).length = l.length
  | _, [] => rfl
  | k, _ :: l => by simp [mapWithIdx, length_mapWithIdx f (k + 1) l]

/-- Indices at which a boolean mask is true (tensor.nonzero() on a mask),
with an explicit starting offset. -/
def trueIdxs : ℕ → List Bool → List ℕ
  | _, [] => []
  | k, true :: m => k :: trueIdxs (k + 1) m
  | k, false :: m => trueIdxs (k + 1) m

/-- Boolean mask indexing t[mask]. -/
def selectMask {α : Type _} : List Bool → List α → List α
  | true :: m, a :: l => a :: selectMask m l
  | false :: m, _ :: l => selectMask m l
  | _, _ => []

@[simp] theorem selectMask_nil_left {α : Type _} (l : List α) :
    selectMask [] l = [] := by cases l <;> rfl

@[simp] theorem selectMask_nil_right {α : Type _} (m : List Bool) :
    selectMask m ([] : List α) = [] := by cases m with
  | nil => rfl
  | cons b m => cases b <;> rfl

@[simp] theorem selectMask_cons_true {α : Type _} (m : List Bool) (a : α) (l : List α) :
    selectMask (true :: m) (a :: l) = a :: selectMask m l := rfl

@[simp] theorem selectMask_cons_false {α : Type _} (m : List Bool) (a : α) (l : List α) :
    selectMask (false :: m) (a :: l) = selectMask m l := rfl

/-- Scatter of an arange starting at base into the true positions of a mask,
keeping an old value elsewhere: models
last_nodes = zeros; last_nodes[mask] = arange(count) + base;
where(mask, last_nodes, old). -/
def scatterArange : ℕ → List Bool → List ℕ → List ℕ
  | _, _, [] => []
  | _, [], l => l
  | k, true :: m, _ :: l => k :: scatterArange (k + 1) m l
  | k, false :: m, o :: l => o :: scatterArange k m l

/-- One-hot boolean column of height n with the true entry at row b. -/
def oneHot (n b : ℕ) : List Bool := (List.range n).map (fun i => decide (i = b))

/-! ### Facts about trueIdxs / selectMask / oneHot -/

theorem trueIdxs_ge : ∀ (k : ℕ) (m : List Bool), ∀ i ∈ trueIdxs k m, k ≤ i
  | _, [] => by simp [trueIdxs]
  | k, true :: m => by
    simp only [trueIdxs, List.mem_cons]
    rintro i (rfl | hi)
    · exact le_refl _
    · exact le_trans (Nat.le_succ _) (trueIdxs_ge (k + 1) m i hi)
  | k, false :: m => by
    intro i hi
    exact le_trans (Nat.le_succ _) (trueIdxs_ge (k + 1) m i (by simpa [trueIdxs] using hi))

theorem trueIdxs_lt : ∀ (k : ℕ) (m : List Bool), ∀ i ∈ trueIdxs k m, i < k + m.length
  | _, [] => by simp [trueIdxs]
  | k, true :: m => by
    simp only [trueIdxs, List.mem_cons, List.length_cons]
    rintro i (rfl | hi)
    · omega
    · have := trueIdxs_lt (k + 1) m i hi
      omega
  | k, false :: m => by
    intro i hi
    have := trueIdxs_lt (k + 1) m i (by simpa [trueIdxs] using hi)
    simp only [List.length_cons]
    omega

theorem trueIdxs_nodup : ∀ (k : ℕ) (m : List Bool), (trueIdxs k m).Nodup
  | _, [] => List.nodup_nil
  | k, true :: m => by
    refine List.nodup_cons.2 ⟨fun h => ?_, trueIdxs_nodup (k + 1) m⟩
    exact absurd (trueIdxs_ge (k + 1) m k h) (by omega)
  | k, false :: m => trueIdxs_nodup (k + 1) m

theorem mem_trueIdxs : ∀ (k : ℕ) (m : List Bool) (i : ℕ),
    i ∈ trueIdxs k m ↔ k ≤ i ∧ m.getD (i - k) false = true
  | k, [], i => by simp [trueIdxs]
  | k, b :: m, i => by
    cases b with
    | true =>
      simp only [trueIdxs, List.mem_cons, mem_trueIdxs (k + 1) m i]
      constructor
      · rintro (rfl | ⟨h1, h2⟩)
        · simp
        · refine ⟨by omega, ?_⟩
          have : i - k = (i - (k + 1)) + 1 := by omega
          simpa [this] using h2
      · rintro ⟨h1, h2⟩
        rcases Nat.eq_or_lt_of_le h1 with rfl | hlt
        · exact Or.inl rfl
        · refine Or.inr ⟨by omega, ?_⟩
          have : i - k = (i - (k + 1)) + 1 := by omega
          simpa [this] using h2
    | false =>
      simp only [trueIdxs, mem_trueIdxs (k + 1) m i]
      constructor
      · rintro ⟨h1, h2⟩
        refine ⟨by omega, ?_⟩
        have : i - k = (i - (k + 1)) + 1 := by omega
        simpa [this] using h2
      · rintro ⟨h1, h2⟩
        rcases Nat.eq_or_lt_of_le h1 with rfl | hlt
        · simpa using h2
        · refine ⟨by omega, ?_⟩
          have : i - k = (i - (k + 1)) + 1 := by omega
          simpa [this] using h2

theorem selectMask_eq_map_trueIdxs {α : Type _} (d : α) :
    ∀ (m : List Bool) (l : List α), m.length ≤ l.length →
      selectMask m l = (trueIdxs 0 m).map (fun b => l.getD b d) := by
  have key : ∀ (m : List Bool) (l : List α) (acc : List α), m.length ≤ l.length →
      selectMask m l = (trueIdxs acc.length m).map (fun b => (acc ++ l).getD b d) := by
    intro m
    induction m with
    | nil => intro l acc _; simp [trueIdxs]
    | cons b m ih =>
      intro l acc hlen
      cases l with
      | nil => simp at hlen
      | cons a l =>
        cases b with
        | true =>
          simp only [selectMask_cons_true, trueIdxs, List.map_cons]
          have h1 : (acc ++ a :: l).getD acc.length d = a := by
            rw [List.getD_eq_getElem?_getD, List.getElem?_append_right (le_refl _)]
            simp
          rw [h1]
          have h2 := ih l (acc ++ [a]) (Nat.le_of_succ_le_succ hlen)
          simpa using h2
        | false =>
          simp only [selectMask_cons_false, trueIdxs]
          have h2 := ih l (acc ++ [a]) (by simpa using Nat.le_of_succ_le_succ hlen)
          simpa using h2
  intro m l h
  simpa using key m l [] h

theorem length_selectMask_le {α : Type _} :
    ∀ (m : List Bool) (l : List α), (selectMask m l).length ≤ l.length
  | [], l => by simp
  | _ :: _, [] => by simp
  | true :: m, a :: l => by
    simpa using Nat.succ_le_succ (length_selectMask_le m l)
  | false :: m, a :: l => by
    simpa using Nat.le_trans (length_selectMask_le m l) (Nat.le_succ _)

theorem length_trueIdxs : ∀ (k k' : ℕ) (m : List Bool),
    (trueIdxs k m).length = (trueIdxs k' m).length
  | _, _, [] => rfl
  | k, k', true :: m => by
    simpa [trueIdxs] using length_trueIdxs (k + 1) (k' + 1) m
  | k, k', false :: m => by
    simpa [trueIdxs] using length_trueIdxs (k + 1) (k' + 1) m

theorem length_selectMask {α : Type _} :
    ∀ (m : List Bool) (l : List α), m.length ≤ l.length →
      (selectMask m l).length = (trueIdxs 0 m).length
  | [], l, _ => by simp [trueIdxs]
  | _ :: _, [], h => by simp at h
  | true :: m, a :: l, h => by
    have := length_selectMask m l (Nat.le_of_succ_le_succ h)
    simp only [selectMask_cons_true, trueIdxs, List.length_cons, this]
    exact congrArg Nat.succ (length_trueIdxs 0 1 m)
  | false :: m, a :: l, h => by
    have := length_selectMask m l (Nat.le_of_succ_le_succ h)
    simp only [selectMask_cons_false, trueIdxs, this]
    exact length_trueIdxs 0 1 m

@[simp] theorem oneHot_length (n b : ℕ) : (oneHot n b).length = n := by simp [oneHot]

theorem oneHot_getD (n b i : ℕ) (hi : i < n) :
    (oneHot n b).getD i false = decide (i = b) := by
  rw [oneHot, List.getD_eq_getElem?_getD, List.getElem?_map, List.getElem?_range hi]
  rfl

theorem oneHot_count (n b : ℕ) (hb : b < n) : (oneHot n b).count true = 1 := by
  have h1 : (oneHot n b).count true = (List.range n).count b := by
    rw [oneHot, List.count, List.countP_map, List.count]
    refine List.countP_congr ?_
    intro i _
    simp [Function.comp]
  rw [h1]
  exact List.count_eq_one_of_mem (List.nodup_range n) (List.mem_range.2 hb)

/-! ### Arg-max with first-occurrence tie-breaking

torch.Tensor.max(dim) returns the first index attaining the maximum; we model
it as the first index whose element dominates the whole list. -/

/-- First index of a maximal element (0 on the empty list). -/
def argmaxFirst {α : Type _} [LinearOrder α] (l : List α) : ℕ :=
  l.findIdx (fun x => decide (∀ y ∈ l, y ≤ x))

theorem findIdx_map_eq {α β : Type _} (p : β → Bool) (f : α → β) :
    ∀ l : List α, (l.map f).findIdx p = l.findIdx (fun a => p (f a))
  | [] => rfl
  | a :: l => by
    simp only [List.map_cons, List.findIdx_cons, findIdx_map_eq p f l]

theorem findIdx_congr {α : Type _} (p q : α → Bool) :
    ∀ l : List α, (∀ a ∈ l, p a = q a) → l.findIdx p = l.findIdx q
  | [], _ => rfl
  | a :: l, h => by
    simp only [List.findIdx_cons, h a (List.mem_cons_self a l),
      findIdx_congr p q l (fun b hb => h b (List.mem_cons_of_mem a hb))]

/-- Applying a function that preserves and reflects order to every element does
not change the first-max index. -/
theorem argmaxFirst_map {α β : Type _} [LinearOrder α] [LinearOrder β] (f : α → β)
    (hf : ∀ x y, f x ≤ f y ↔ x ≤ y) (l : List α) :
    argmaxFirst (l.map f) = argmaxFirst l := by
  unfold argmaxFirst
  rw [findIdx_map_eq]
  refine findIdx_congr _ _ l (fun a _ => ?_)
  refine decide_eq_decide.2 ?_
  constructor
  · intro h y hy
    exact (hf y a).1 (h (f y) (List.mem_map_of_mem f hy))
  · intro h y hy
    rcases List.mem_map.1 hy with ⟨x, hx, rfl⟩
    exact (hf x a).2 (h x hx)

theorem exists_max_mem {α : Type _} [LinearOrder α] :
    ∀ l : List α, l ≠ [] → ∃ x ∈ l, ∀ y ∈ l, y ≤ x
  | [], h => absurd rfl h
  | a :: l, _ => by
    cases l with
    | nil => exact ⟨a, by simp⟩
    | cons b m =>
      rcases exists_max_mem (b :: m) (by simp) with ⟨x, hx, hmax⟩
      rcases le_total x a with hxa | hax
      · refine ⟨a, List.mem_cons_self a _, ?_⟩
        intro y hy
        rcases List.mem_cons.1 hy with rfl | hy
        · exact le_refl _
        · exact le_trans (hmax y hy) hxa
      · refine ⟨x, List.mem_cons_of_mem a hx, ?_⟩
        intro y hy
        rcases List.mem_cons.1 hy with rfl | hy
        · exact hax
        · exact hmax y hy

theorem argmaxFirst_lt_length {α : Type _} [LinearOrder α] (l : List α) (h : l ≠ []) :
    argmaxFirst l < l.length := by
  rcases exists_max_mem l h with ⟨x, hx, hmax⟩
  exact List.findIdx_lt_length_of_exists ⟨x, hx, by simpa using hmax⟩

theorem argmaxFirst_isMax {α : Type _} [LinearOrder α] (l : List α) (h : l ≠ [])
    (d : α) : ∀ y ∈ l, y ≤ l.getD (argmaxFirst l) d := by
  have hlt := argmaxFirst_lt_length l h
  have := @List.findIdx_getElem _ (fun x => decide (∀ y ∈ l, y ≤ x)) l hlt
  rw [List.getD_eq_getElem?_getD, List.getElem?_eq_getElem hlt]
  simpa using this

theorem argmaxFirst_const {α : Type _} [LinearOrder α] (l : List α) (c : α)
    (h : ∀ y ∈ l, y = c) : argmaxFirst l = 0 := by
  cases l with
  | nil => rfl
  | cons a m =>
    have ha : a = c := h a (List.mem_cons_self a m)
    unfold argmaxFirst
    rw [List.findIdx_cons]
    have hp : decide (∀ y ∈ a :: m, y ≤ a) = true := by
      refine decide_eq_true ?_
      intro y hy
      rw [h y hy, ha]
    rw [hp]
    rfl

/-! ### The sampling primitives of graphgen.py -/

/-- Value of exp on logits extended with -inf (exp(-inf) = 0), as produced by
torch softmax over tensors containing -inf entries. -/
noncomputable def bexp : WithBot ℝ → ℝ :=
  WithBot.recBotCoe 0 Real.exp

@[simp] theorem bexp_bot : bexp ⊥ = 0 := rfl

@[simp] theorem bexp_coe (a : ℝ) : bexp (a : WithBot ℝ) = Real.exp a := rfl

theorem bexp_nonneg (x : WithBot ℝ) : 0 ≤ bexp x := by
  induction x using WithBot.recBotCoe with
  | bot => simp
  | coe a => simpa using (Real.exp_pos a).le

theorem bexp_eq_zero_iff (x : WithBot ℝ) : bexp x = 0 ↔ x = ⊥ := by
  induction x using WithBot.recBotCoe with
  | bot => simp
  | coe a => simpa using (Real.exp_pos a).ne'

theorem bexp_le_iff (x y : WithBot ℝ) : bexp x ≤ bexp y ↔ x ≤ y := by
  induction x using WithBot.recBotCoe with
  | bot =>
    simpa using bexp_nonneg y
  | coe a =>
    induction y using WithBot.recBotCoe with
    | bot =>
      simp only [bexp_bot, bexp_coe]
      constructor
      · intro h
        exact absurd (lt_of_lt_of_le (Real.exp_pos a) h) (by simp)
      · intro h
        exact absurd h (by simp)
    | coe b => simpa using Real.exp_le_exp

/-- F.softmax over a row that may contain -inf entries. -/
noncomputable def softmaxRow (l : List (WithBot ℝ)) : List ℝ :=
  l.map (fun x => bexp x / (l.map bexp).sum)

/-- Additive noise applied entrywise (tensor + noise, one draw per entry). -/
def addNoise (noise : ℕ → ℝ) (l : List (WithBot ℝ)) : List (WithBot ℝ) :=
  mapWithIdx (fun i x => x + ((noise i : ℝ) : WithBot ℝ)) 0 l

/-- sample_softmax: add (Gumbel) noise, softmax, then arg-max.  The noise
draw is explicit; the source computes it as
-log(-log(rand+eps)+eps), always a finite real. -/
noncomputable def sample_softmax (noise : ℕ → ℝ) (tensor : List (WithBot ℝ)) : ℕ :=
  argmaxFirst (softmaxRow (addNoise noise tensor))

/-- mask_softmax_input: torch.where(mask, tensor, -inf). -/
def mask_softmax_input (tensor : List ℝ) (mask : List Bool) : List (WithBot ℝ) :=
  List.zipWith (fun x m => if m then (x : WithBot ℝ) else ⊥) tensor mask

/-- masked_softmax: mask, then sample_softmax. -/
noncomputable def masked_softmax (noise : ℕ → ℝ) (tensor : List ℝ) (mask : List Bool) : ℕ :=
  sample_softmax noise (mask_softmax_input tensor mask)

theorem sum_eq_zero_of_nonneg :
    ∀ l : List ℝ, (∀ x ∈ l, 0 ≤ x) → l.sum = 0 → ∀ x ∈ l, x = 0
  | [], _, _ => by simp
  | a :: l, hpos, hsum => by
    have hl : ∀ x ∈ l, 0 ≤ x := fun x hx => hpos x (List.mem_cons_of_mem a hx)
    have hls : 0 ≤ l.sum := List.sum_nonneg hl
    have ha : 0 ≤ a := hpos a (List.mem_cons_self a l)
    rw [List.sum_cons] at hsum
    have ha0 : a = 0 := by linarith
    have hsum0 : l.sum = 0 := by linarith
    intro x hx
    rcases List.mem_cons.1 hx with rfl | hx
    · exact ha0
    · exact sum_eq_zero_of_nonneg l hl hsum0 x hx

/-- The softmax between the noisy logits and the arg-max changes nothing:
the selected index is the arg-max of the noisy logits themselves. -/
theorem sample_softmax_eq_argmax (noise : ℕ → ℝ) (t : List (WithBot ℝ)) :
    sample_softmax noise t = argmaxFirst (addNoise noise t) := by
  unfold sample_softmax softmaxRow
  set nl := addNoise noise t with hnl
  set Z : ℝ := (nl.map bexp).sum with hZ
  rcases lt_or_le 0 Z with hpos | hneg
  · exact argmaxFirst_map (fun x => bexp x / Z)
      (fun x y => (div_le_div_iff_of_pos_right hpos).trans (bexp_le_iff x y)) nl
  · have hzero : Z = 0 :=
      le_antisymm hneg (List.sum_nonneg (by
        intro x hx
        rcases List.mem_map.1 hx with ⟨y, _, rfl⟩
        exact bexp_nonneg y))
    have hbot : ∀ y ∈ nl, y = ⊥ := by
      intro y hy
      refine (bexp_eq_zero_iff y).1 ?_
      exact sum_eq_zero_of_nonneg _ (by
          intro x hx
          rcases List.mem_map.1 hx with ⟨z, _, rfl⟩
          exact bexp_nonneg z)
        hzero (bexp y) (List.mem_map_of_mem bexp hy)
    rw [argmaxFirst_const _ 0 (by
      intro y hy
      rcases List.mem_map.1 hy with ⟨z, hz, rfl⟩
      rw [hbot z hz]
      simp)]
    rw [argmaxFirst_const nl ⊥ hbot]

theorem mapWithIdx_getD {α β : Type _} (f : ℕ → α → β) (d : β) (d' : α) :
    ∀ (k : ℕ) (l : List α) (i : ℕ), i < l.length →
      (mapWithIdx f k l).getD i d = f (k + i) (l.getD i d')
  | _, [], i, h => by simp at h
  | k, a :: l, 0, _ => by simp
  | k, a :: l, i + 1, h => by
    have := mapWithIdx_getD f d d' (k + 1) l i (by simpa using Nat.lt_of_succ_lt_succ h)
    simpa [Nat.add_assoc, Nat.add_comm 1 i] using this

theorem zipWith_getD {α β γ : Type _} (f : α → β → γ) (d : γ) (da : α) (db : β) :
    ∀ (as : List α) (bs : List β) (i : ℕ), i < as.length → i < bs.length →
      (List.zipWith f as bs).getD i d = f (as.getD i da) (bs.getD i db)
  | [], _, i, h, _ => by simp at h
  | _ :: _, [], i, _, h => by simp at h
  | a :: as, b :: bs, 0, _, _ => by simp
  | a :: as, b :: bs, i + 1, ha, hb => by
    simpa using zipWith_getD f d da db as bs i
      (Nat.lt_of_succ_lt_succ ha) (Nat.lt_of_succ_lt_succ hb)

@[simp] theorem length_addNoise (noise : ℕ → ℝ) (l : List (WithBot ℝ)) :
    (addNoise noise l).length = l.length := by
  simp [addNoise]

theorem addNoise_getD (noise : ℕ → ℝ) (l : List (WithBot ℝ)) (i : ℕ) (h : i < l.length) :
    (addNoise noise l).getD i ⊥ = l.getD i ⊥ + ((noise i : ℝ) : WithBot ℝ) := by
  simpa using mapWithIdx_getD (fun i x => x + ((noise i : ℝ) : WithBot ℝ)) ⊥ ⊥ 0 l i h

@[simp] theorem length_mask_softmax_input (t : List ℝ) (m : List Bool) :
    (mask_softmax_input t m).length = min t.length m.length := by
  simp [mask_softmax_input]

theorem mask_softmax_input_getD (t : List ℝ) (m : List Bool) (i : ℕ)
    (ht : i < t.length) (hm : i < m.length) :
    (mask_softmax_input t m).getD i ⊥ =
      if m.getD i false then ((t.getD i 0 : ℝ) : WithBot ℝ) else ⊥ := by
  unfold mask_softmax_input
  exact zipWith_getD _ ⊥ 0 false t m i ht hm

/-- Soundness of masked sampling: if the batch row has at least one unmasked
entry then the selected index is within bounds and is unmasked. -/
theorem masked_softmax_sound (noise : ℕ → ℝ) (t : List ℝ) (mask : List Bool)
    (hex : ∃ i, i < t.length ∧ i < mask.length ∧ mask.getD i false = true) :
    masked_softmax noise t mask < min t.length mask.length ∧
      mask.getD (masked_softmax noise t mask) false = true := by
  obtain ⟨i, hit, him, hmask⟩ := hex
  set w := mask_softmax_input t mask with hw
  have hlenw : w.length = min t.length mask.length := by simp [hw]
  have hiw : i < w.length := by omega
  have hwne : w ≠ [] := by
    intro hnil
    rw [hnil] at hiw
    simp at hiw
  set nl := addNoise noise w with hnldef
  have hlnl : nl.length = w.length := by simp [hnldef]
  have hnlne : nl ≠ [] := by
    intro hnil
    rw [hnil] at hlnl
    simp at hlnl
    omega
  have hsel : masked_softmax noise t mask = argmaxFirst nl := by
    rw [masked_softmax, sample_softmax_eq_argmax]
  set s := argmaxFirst nl with hs
  have hslt : s < nl.length := argmaxFirst_lt_length nl hnlne
  have h1 : masked_softmax noise t mask < min t.length mask.length := by
    rw [hsel]
    omega
  refine ⟨h1, ?_⟩
  -- the value at the unmasked entry i is a real, so the max is not bottom
  have hwi : w.getD i ⊥ = ((t.getD i 0 : ℝ) : WithBot ℝ) := by
    rw [hw, mask_softmax_input_getD t mask i hit him, hmask]
    simp
  have hnli : nl.getD i ⊥ = (((t.getD i 0 + noise i : ℝ)) : WithBot ℝ) := by
    rw [hnldef, addNoise_getD noise w i hiw, hwi]
    simp [WithBot.coe_add]
  have hmem : nl.getD i ⊥ ∈ nl := by
    rw [List.getD_eq_getElem?_getD, List.getElem?_eq_getElem (by omega : i < nl.length)]
    exact List.getElem_mem _
  have hle := argmaxFirst_isMax nl hnlne ⊥ (nl.getD i ⊥) hmem
  rw [hnli] at hle
  have hsbot : nl.getD s ⊥ ≠ ⊥ := by
    intro hbot
    rw [hbot] at hle
    exact WithBot.not_coe_le_bot _ hle
  have hnls : nl.getD s ⊥ = w.getD s ⊥ + ((noise s : ℝ) : WithBot ℝ) :=
    addNoise_getD noise w s (by omega)
  have hwsbot : w.getD s ⊥ ≠ ⊥ := by
    intro hbot
    rw [hnls, hbot] at hsbot
    simp at hsbot
  have hst : s < t.length := by omega
  have hsm : s < mask.length := by omega
  rw [hw, mask_softmax_input_getD t mask s hst hsm] at hwsbot
  by_contra hmf
  rw [Bool.not_eq_true, hsel] at hmf
  rw [hmf] at hwsbot
  simp at hwsbot

/-! ### Loss helpers of graphgen.py -/

/-- loss_running_gate(l, running) = torch.where(running, l, 0).mean().
The mean divides by the full length of l (the batch size), whatever the
number of running elements. -/
def loss_running_gate {F : Type _} [Field F] (l : List F) (running : List Bool) : F :=
  (List.zipWith (fun x r => if r then x else 0) l running).sum / (l.length : F)

/-- Spec-side definition (from the spec's words, for comparison): the mean of
the per-element losses over the then-running subset only, i.e. terminated
elements also leave the averaging denominator. -/
def running_subset_mean {F : Type _} [Field F] (l : List F) (running : List Bool) : F :=
  (List.zipWith (fun x r => if r then x else 0) l running).sum / (running.count true : F)

/-- torch.sigmoid. -/
noncomputable def sigmoid (x : ℝ) : ℝ := 1 / (1 + Real.exp (-x))

theorem sigmoid_zero : sigmoid 0 = 1 / 2 := by
  rw [sigmoid, neg_zero, Real.exp_zero]
  norm_num

theorem sigmoid_zero_gt : (0 : ℝ) < sigmoid 0 := by
  rw [sigmoid_zero]
  norm_num

theorem sigmoid_zero_lt_one : ¬ ((1 : ℝ) < sigmoid 0) := by
  rw [sigmoid_zero]
  norm_num

/-- F.cross_entropy(row, target) = -log softmax(row)[target], on a row that may
contain -inf entries. -/
noncomputable def cross_entropy (logits : List (WithBot ℝ)) (target : ℕ) : ℝ :=
  Real.log ((logits.map bexp).sum) - Real.log (bexp (logits.getD target ⊥))

/-- masked_cross_entropy_loss: optionally mask the logits, compute per-element
cross entropy, then gate and average with loss_running_gate. -/
noncomputable def masked_cross_entropy_loss (tensor : List (List ℝ))
    (mask : Option (List (List Bool))) (target : List ℕ) (enabled : List Bool) : ℝ :=
  let rows : List (List (WithBot ℝ)) :=
    match mask with
    | some m => List.zipWith mask_softmax_input tensor m
    | none => tensor.map (fun row => row.map (fun x => (x : WithBot ℝ)))
  loss_running_gate (List.zipWith cross_entropy rows target) enabled

/-- remap_pad(t, pad_char, transform): keep transform(x) off the pad sentinel,
map the sentinel to 0. -/
def remap_pad (t : List ℕ) (pad_char : ℕ) (transform : ℕ → ℕ) : List ℕ :=
  t.map (fun x => if x ≠ pad_char then transform x else 0)

/-- F.binary_cross_entropy_with_logits for a single scalar. -/
noncomputable def bce_with_logits (x y : ℝ) : ℝ :=
  -(y * Real.log (sigmoid x) + (1 - y) * Real.log (1 - sigmoid x))

/-- masked_bce_loss: per-element binary cross entropy against a boolean target
(cast to 0/1), gated and averaged by loss_running_gate. -/
noncomputable def masked_bce_loss (tensor : List ℝ) (target : List Bool)
    (enabled : List Bool) : ℝ :=
  loss_running_gate
    (List.zipWith (fun x y => bce_with_logits x (if y then 1 else 0)) tensor target) enabled

/-- sample_binary: one uniform draw per entry, true when the draw falls below
the sigmoid of the logit. -/
noncomputable def sample_binary (rand : ℕ → ℝ) (tensor : List ℝ) : List Bool :=
  mapWithIdx (fun i x => decide (rand i < sigmoid x)) 0 tensor

/-! ### The Graph state container -/

/-- Batched growing graph state (class Graph).  Node and edge state vectors
live in an abstract state type S; owner_masks is stored as the list of its
columns (one column per node, of height batch_size); machine dtypes
(uint8 node/edge types, long indices) are Nat with explicit mod-256 where the
code casts to byte. -/
structure Graph (S : Type _) where
  batch_size : ℕ
  nodes : List S
  node_types : List ℕ
  edge_source : List ℕ
  edge_dest : List ℕ
  edge_features : List S
  edge_types : List ℕ
  owner_masks : List (List Bool)
  last_inserted_node : List ℕ
  running : List Bool

/-- Graph.__init__: everything empty, last_inserted_node all zeros,
running all ones. -/
def Graph.init (S : Type _) (batch_size : ℕ) : Graph S :=
  { batch_size := batch_size
    nodes := []
    node_types := []
    edge_source := []
    edge_dest := []
    edge_features := []
    edge_types := []
    owner_masks := []
    last_inserted_node := List.replicate batch_size 0
    running := List.replicate batch_size true }

/-- Topology-only snapshot: the fields Graph.get_final_graph keeps; every other
tensor field of the Python result is set to None, so it does not appear here. -/
structure FinalGraph where
  batch_size : ℕ
  node_types : List ℕ
  edge_source : List ℕ
  edge_dest : List ℕ
  edge_types : List ℕ
  owner_masks : List (List Bool)

/-- Graph.get_final_graph: project onto the needed topology fields. -/
def Graph.get_final_graph {S : Type _} (g : Graph S) : FinalGraph :=
  { batch_size := g.batch_size
    node_types := g.node_types
    edge_source := g.edge_source
    edge_dest := g.edge_dest
    edge_types := g.edge_types
    owner_masks := g.owner_masks }

/-! ### Aggregator -/

/-- Aggregator module.  transform and gate are the learned Linear /
Linear+Sigmoid layers (arbitrary functions of the node state), bias_if_empty
the optional learned constant, drop the dropout realization (row index →
elementwise map; identity in eval mode). -/
structure Aggregator (S A : Type _) where
  transform : S → A
  gate : S → A
  bias_if_empty : Option A
  drop : ℕ → A → A

/-- Aggregator.forward.  If the whole graph has zero nodes, return the bias
(or zero) row for every batch element; otherwise row b is the owner-masked sum
over all nodes of transform(node) * gate(node), followed by dropout. -/
def Aggregator.forward {S A : Type _} [AddCommMonoid A] [Mul A]
    (m : Aggregator S A) (g : Graph S) : List A :=
  if g.nodes.isEmpty then
    match m.bias_if_empty with
    | some b => List.replicate g.batch_size b
    | none => List.replicate g.batch_size 0
  else
    let gated := g.nodes.map (fun s => m.transform s * m.gate s)
    (List.range g.batch_size).map (fun b =>
      m.drop b ((List.zipWith (fun col x => if col.getD b false then x else 0)
        g.owner_masks gated).sum))

@[simp] theorem Aggregator.forward_length {S A : Type _} [AddCommMonoid A] [Mul A]
    (m : Aggregator S A) (g : Graph S) : (m.forward g).length = g.batch_size := by
  rw [Aggregator.forward]
  split
  · split <;> simp
  · simp

/-! ### Propagator -/

/-- One message-passing round.  message_node / message_features are the two
bias-free Linear layers of the decomposed first message layer, message_layer_2
the Tanh+Linear stack, node_update_fn the GRUCell, drop_messages / drop_inputs
the two dropout realizations (indexed by edge / node position). -/
structure Propagator (S M : Type _) where
  message_node : S → M
  message_features : S → M
  message_layer_2 : M → M
  drop_messages : ℕ → M → M
  drop_inputs : ℕ → M → M
  node_update_fn : M → S → S

/-- Propagator._node_update_mask: a node is updated iff its owner is flagged in
mask_override (or, by default, in graph.running). -/
def node_update_mask {S : Type _} (g : Graph S) (mask_override : Option (List Bool)) :
    List Bool :=
  let flags := mask_override.getD g.running
  g.owner_masks.map (fun col => (List.zipWith (fun f o => f && o) flags col).any (fun x => x))

/-- Propagator.forward: no-op without nodes or edges; otherwise compute the
symmetric per-edge messages, scatter-add them into both endpoints, and update
the states of nodes owned by flagged batch elements through the GRU cell. -/
def Propagator.forward {S M : Type _} [AddCommMonoid M]
    (p : Propagator S M) (g : Graph S) (mask_override : Option (List Bool)) : Graph S :=
  if g.nodes.isEmpty || g.edge_features.isEmpty then g
  else
    let node_features := g.nodes.map p.message_node
    let e1 := g.edge_source.map (fun i => node_features.getD i 0)
    let e2 := g.edge_dest.map (fun i => node_features.getD i 0)
    let ef := g.edge_features.map p.message_features
    let messages := List.zipWith (fun x y => x + y) (List.zipWith (fun x y => x + y) e1 e2) ef
    let messages := mapWithIdx (fun i x => p.drop_messages i (p.message_layer_2 x)) 0 messages
    let inputs : ℕ → M := fun i =>
      ((g.edge_dest.zip messages).map (fun q => if q.1 = i then q.2 else 0)).sum +
      ((g.edge_source.zip messages).map (fun q => if q.1 = i then q.2 else 0)).sum
    let um := node_update_mask g mask_override
    let new_nodes := mapWithIdx
      (fun i s => if um.getD i false then p.node_update_fn (p.drop_inputs i (inputs i)) s else s)
      0 g.nodes
    { g with nodes := new_nodes }

/-- MultilayerPropagator: independently parameterized rounds applied in
sequence. -/
def MultilayerPropagator (S M : Type _) : Type _ := List (Propagator S M)

/-- MultilayerPropagator.forward. -/
def MultilayerPropagator.forward {S M : Type _} [AddCommMonoid M]
    (ps : MultilayerPropagator S M) (g : Graph S) (mask_override : Option (List Bool)) :
    Graph S :=
  ps.foldl (fun h p => p.forward h mask_override) g

theorem Propagator.step_preserves {S M : Type _} [AddCommMonoid M]
    (p : Propagator S M) (g : Graph S) (mo : Option (List Bool)) :
    (p.forward g mo).batch_size = g.batch_size ∧
    (p.forward g mo).nodes.length = g.nodes.length ∧
    (p.forward g mo).node_types = g.node_types ∧
    (p.forward g mo).edge_source = g.edge_source ∧
    (p.forward g mo).edge_dest = g.edge_dest ∧
    (p.forward g mo).edge_features = g.edge_features ∧
    (p.forward g mo).edge_types = g.edge_types ∧
    (p.forward g mo).owner_masks = g.owner_masks ∧
    (p.forward g mo).last_inserted_node = g.last_inserted_node ∧
    (p.forward g mo).running = g.running := by
  rw [Propagator.forward]
  split
  · exact ⟨rfl, rfl, rfl, rfl, rfl, rfl, rfl, rfl, rfl, rfl⟩
  · refine ⟨rfl, ?_, rfl, rfl, rfl, rfl, rfl, rfl, rfl, rfl⟩
    simp

theorem MultilayerPropagator.layers_preserve {S M : Type _} [AddCommMonoid M]
    (ps : MultilayerPropagator S M) (g : Graph S) (mo : Option (List Bool)) :
    (ps.forward g mo).batch_size = g.batch_size ∧
    (ps.forward g mo).nodes.length = g.nodes.length ∧
    (ps.forward g mo).node_types = g.node_types ∧
    (ps.forward g mo).edge_source = g.edge_source ∧
    (ps.forward g mo).edge_dest = g.edge_dest ∧
    (ps.forward g mo).edge_features = g.edge_features ∧
    (ps.forward g mo).edge_types = g.edge_types ∧
    (ps.forward g mo).owner_masks = g.owner_masks ∧
    (ps.forward g mo).last_inserted_node = g.last_inserted_node ∧
    (ps.forward g mo).running = g.running := by
  induction ps generalizing g with
  | nil => exact ⟨rfl, rfl, rfl, rfl, rfl, rfl, rfl, rfl, rfl, rfl⟩
  | cons p ps ih =>
    have h1 := Propagator.step_preserves p g mo
    have h2 := ih (p.forward g mo)
    rw [MultilayerPropagator.forward] at h2 ⊢
    simp only [List.foldl_cons]
    exact ⟨h2.1.trans h1.1, h2.2.1.trans h1.2.1, h2.2.2.1.trans h1.2.2.1,
      h2.2.2.2.1.trans h1.2.2.2.1, h2.2.2.2.2.1.trans h1.2.2.2.2.1,
      h2.2.2.2.2.2.1.trans h1.2.2.2.2.2.1, h2.2.2.2.2.2.2.1.trans h1.2.2.2.2.2.2.1,
      h2.2.2.2.2.2.2.2.1.trans h1.2.2.2.2.2.2.2.1,
      h2.2.2.2.2.2.2.2.2.1.trans h1.2.2.2.2.2.2.2.2.1,
      h2.2.2.2.2.2.2.2.2.2.trans h1.2.2.2.2.2.2.2.2.2⟩

/-! ### NodeAdder -/

/-- NodeAdder module.  node_type_decision is the Linear head producing the
n_node_types+1 logits (index 0 = terminate), node_type_embedding the embedding
table (row lookup), f_init_part1 / f_init_part2 the two halves of the new-node
initializer. -/
structure NodeAdder (S M A : Type _) where
  pad_char : ℕ
  propagator : MultilayerPropagator S M
  decision_aggregator : Aggregator S A
  init_aggregator : Aggregator S A
  node_type_decision : A → List ℝ
  node_type_embedding : ℕ → S
  f_init_part1 : S → S
  f_init_part2 : A → S

/-- Generation-mode selection of NodeAdder.forward: lift the logits rows to
extended reals, force the terminate logit of every row to -inf when the graph
is still empty, then Gumbel-max sample each row. -/
noncomputable def NodeAdder.gen_select {S M A : Type _}
    [AddCommMonoid A] [Mul A] (m : NodeAdder S M A) (noise : ℕ → ℕ → ℝ)
    (g : Graph S) : List ℕ :=
  let logits := ((m.decision_aggregator.forward g).map m.node_type_decision).map
    (fun row => row.map (fun x => ((x : ℝ) : WithBot ℝ)))
  -- generating the first element: force the terminate logit to -inf
  let logits := if g.nodes.isEmpty then logits.map (fun row => row.set 0 ⊥) else logits
  mapWithIdx (fun b row => sample_softmax (noise b) row) 0 logits

@[simp] theorem NodeAdder.gen_select_length {S M A : Type _}
    [AddCommMonoid A] [Mul A] (m : NodeAdder S M A) (noise : ℕ → ℕ → ℝ) (g : Graph S) :
    (NodeAdder.gen_select m noise g).length = g.batch_size := by
  rw [NodeAdder.gen_select]
  split <;> simp

/-- NodeAdder.forward.  reference = some labels is training mode (teacher
forcing), none is generation mode with one noise row per batch element.
Returns the updated graph and the loss (0 in generation mode). -/
noncomputable def NodeAdder.forward {S M A : Type _}
    [AddCommMonoid S] [AddCommMonoid M] [AddCommMonoid A] [Mul A]
    (m : NodeAdder S M A) (noise : ℕ → ℕ → ℝ) (g0 : Graph S)
    (reference : Option (List ℕ)) : Graph S × ℝ :=
  let g := m.propagator.forward g0 none
  let selected_type : List ℕ :=
    match reference with
    | some ref => remap_pad ref m.pad_char (fun x => x + 1)
    | none => NodeAdder.gen_select m noise g
  let loss : ℝ :=
    match reference with
    | some ref =>
      masked_cross_entropy_loss ((m.decision_aggregator.forward g).map m.node_type_decision)
        none (remap_pad ref m.pad_char (fun x => x + 1)) g.running
    | none => 0
  let g2 : Graph S :=
    { g with running := List.zipWith (fun s r => decide (s ≠ 0) && r) selected_type g.running }
  if g2.running.any (fun x => x) then
    let new_type_embedding := selected_type.map (fun s => m.node_type_embedding (s - 1))
    let init_features := m.init_aggregator.forward g2
    let new_features := List.zipWith (fun e i => m.f_init_part1 e + m.f_init_part2 i)
      new_type_embedding init_features
    let mask := g2.running
    ({ g2 with
        nodes := g2.nodes ++ selectMask mask new_features
        owner_masks := g2.owner_masks ++ (trueIdxs 0 mask).map (fun b => oneHot g2.batch_size b)
        node_types := g2.node_types ++
          (selectMask mask selected_type).map (fun t => (t % 256 + 255) % 256)
        last_inserted_node := scatterArange g2.nodes.length mask g2.last_inserted_node },
      loss)
  else (g2, loss)

/-! ### EdgeAdder -/

/-- EdgeAdder module.  fs_layer1_target / fs_layer1_new are the two halves of
the decomposed target-and-type scorer (each row has n_edge_dtypes entries),
f_addedge_aggregated / f_addedge_new the two halves of the add-another-edge
scorer, edge_init the edge-type embedding table.  edge_init_aggregator is
constructed by the source but never used in forward. -/
structure EdgeAdder (S M A : Type _) where
  pad_char : ℕ
  n_edge_dtypes : ℕ
  n_max_edges : Option ℕ
  propagator : MultilayerPropagator S M
  edge_decision_aggregator : Aggregator S A
  edge_init : ℕ → S
  edge_init_aggregator : Aggregator S A
  f_addedge_aggregated : A → ℝ
  f_addedge_new : S → ℝ
  fs_layer1_target : S → List ℝ
  fs_layer1_new : S → List ℝ

/-- Generation-mode add-another-edge decision of one loop step: Bernoulli
sample on the sigmoid scores, forced all-false once the cap is reached. -/
noncomputable def EdgeAdder.gen_need {S M A : Type _} (m : EdgeAdder S M A)
    (bn1 : ℕ → ℝ) (add_index : ℕ) (scores : List ℝ) : List Bool :=
  let need := sample_binary bn1 scores
  -- force termination when the limit is reached
  match m.n_max_edges with
  | some mx => if mx ≤ add_index then need.map (fun _ => false) else need
  | none => need

/-- Flattened per-batch scores over (target node, edge type) pairs:
fs_layer1_target(other node) + fs_layer1_new(new node), flat index
= node * n_edge_dtypes + type. -/
noncomputable def EdgeAdder.edge_logits {S M A : Type _} (m : EdgeAdder S M A)
    (nodes : List S) (new_node : S) : List ℝ :=
  nodes.bind (fun nj => List.zipWith (fun x y => x + y)
    (m.fs_layer1_target nj) (m.fs_layer1_new new_node))

/-- Row b of the owner mask (owner_masks is stored by columns). -/
def owner_row (cols : List (List Bool)) (b : ℕ) : List Bool :=
  cols.map (fun col => col.getD b false)

/-- owner_mask_expanded: each ownership bit repeated for every edge type. -/
def EdgeAdder.edge_mask {S M A : Type _} (m : EdgeAdder S M A)
    (cols : List (List Bool)) (b : ℕ) : List Bool :=
  (owner_row cols b).bind (fun o => List.replicate m.n_edge_dtypes o)

/-- Generation-mode target-and-type selection: one masked Gumbel-max sample
per batch element over the flattened scores. -/
noncomputable def EdgeAdder.gen_selected {S M A : Type _} [AddCommMonoid S]
    (m : EdgeAdder S M A) (cn1 : ℕ → ℕ → ℝ) (g : Graph S) (new_nodes : List S) : List ℕ :=
  (List.range g.batch_size).map (fun b =>
    masked_softmax (cn1 b) (EdgeAdder.edge_logits m g.nodes (new_nodes.getD b 0))
      (EdgeAdder.edge_mask m g.owner_masks b))

/-- Append the selected edges of one loop step: decode flat indices into
(target, type), then for each still-running batch element record one edge with
destination = its last inserted node, source = its selected target node,
feature = edge-type embedding row (type − 1, clamped at 0), and the type cast
to uint8. -/
def EdgeAdder.append_edges {S M A : Type _} (m : EdgeAdder S M A)
    (selected_edge : List ℕ) (running : List Bool) (g : Graph S) : Graph S :=
  let selected_type := selected_edge.map (fun e => e % m.n_edge_dtypes)
  let selected_other := selected_edge.map (fun e => e / m.n_edge_dtypes)
  let ty := selectMask running selected_type
  { g with
    edge_dest := g.edge_dest ++ selectMask running g.last_inserted_node
    edge_source := g.edge_source ++ selectMask running selected_other
    edge_features := g.edge_features ++ ty.map (fun t => m.edge_init (t - 1))
    edge_types := g.edge_types ++ ty.map (fun t => t % 256) }

/-- The while-loop body of EdgeAdder.forward, fuel-indexed.  A reference step
is a pair (target node index per batch element, edge type per batch element,
pad meaning no edge).  none = fuel exhausted, or (in training mode) the cap
assertion fired / the reference ran out of steps. -/
noncomputable def EdgeAdder.loop {S M A : Type _}
    [AddCommMonoid S] [AddCommMonoid M] [AddCommMonoid A] [Mul A]
    (m : EdgeAdder S M A) (binNoise : ℕ → ℕ → ℝ) (catNoise : ℕ → ℕ → ℕ → ℝ)
    (reference : Option (List (List ℕ × List ℕ))) (new_nodes : List S) :
    ℕ → ℕ → List Bool → Graph S → ℝ → Option (Graph S × ℝ)
  | 0, _, _, _, _ => none
  | fuel + 1, add_index, running0, g0, loss0 =>
    let g := m.propagator.forward g0 (some running0)
    let new_edge_needed := List.zipWith (fun a n => m.f_addedge_aggregated a + m.f_addedge_new n)
        (m.edge_decision_aggregator.forward g) new_nodes
    let step : Option (List Bool × ℝ) :=
      match reference with
      | some ref =>
        -- assert n_max_edges is None or add_index < n_max_edges
        if (match m.n_max_edges with | some mx => decide (mx ≤ add_index) | none => false) then
          none
        else
          match ref.get? add_index with
          | none => none
          | some r =>
            let need := r.2.map (fun t => decide (t ≠ m.pad_char))
            some (need, masked_bce_loss new_edge_needed need running0)
      | none =>
        some (EdgeAdder.gen_need m (binNoise add_index) add_index new_edge_needed, 0)
    match step with
    | none => none
    | some (need, lstep) =>
      let loss1 := loss0 + lstep
      let running := List.zipWith (fun r n => r && n) running0 need
      if running.any (fun x => x) = false then some (g, loss1)
      else
        let selected_edge : List ℕ :=
          match reference with
          | some ref =>
            match ref.get? add_index with
            | some r => List.zipWith (fun tgt ty => tgt * m.n_edge_dtypes + ty)
                r.1 (remap_pad r.2 m.pad_char (fun x => x))
            | none => []
          | none => EdgeAdder.gen_selected m (catNoise add_index) g new_nodes
        let loss2 :=
          match reference with
          | some _ =>
            loss1 + masked_cross_entropy_loss
              ((List.range g.batch_size).map
                (fun b => EdgeAdder.edge_logits m g.nodes (new_nodes.getD b 0)))
              (some ((List.range g.batch_size).map
                (fun b => EdgeAdder.edge_mask m g.owner_masks b)))
              selected_edge running
          | none => loss1
        EdgeAdder.loop m binNoise catNoise reference new_nodes fuel (add_index + 1)
          running (EdgeAdder.append_edges m selected_edge running g) loss2

/-- EdgeAdder.forward: early return on an empty (falsy) reference, otherwise
freeze the newest-node states and run the loop starting from the graph's
running flags.  graph.running itself is never written. -/
noncomputable def EdgeAdder.forward {S M A : Type _}
    [AddCommMonoid S] [AddCommMonoid M] [AddCommMonoid A] [Mul A]
    (fuel : ℕ) (m : EdgeAdder S M A) (binNoise : ℕ → ℕ → ℝ) (catNoise : ℕ → ℕ → ℕ → ℝ)
    (g : Graph S) (reference : Option (List (List ℕ × List ℕ))) : Option (Graph S × ℝ) :=
  match reference with
  | some ref =>
    if ref.isEmpty then some (g, 0)
    else
      EdgeAdder.loop m binNoise catNoise (some ref)
        (g.last_inserted_node.map (fun i => g.nodes.getD i 0)) fuel 0 g.running g 0
  | none =>
    EdgeAdder.loop m binNoise catNoise none
      (g.last_inserted_node.map (fun i => g.nodes.getD i 0)) fuel 0 g.running g 0

/-! ### GraphGen orchestrator -/

/-- The orchestrator: node adder and edge adder plus the optional node cap. -/
structure GraphGen (S M A : Type _) where
  n_max_nodes : Option ℕ
  edge_adder : EdgeAdder S M A
  node_adder : NodeAdder S M A

/-- The while-loop of GraphGen.forward in generation mode (ref_output = None),
fuel-indexed; i advances by 2 each round and the cap test is
n_max_nodes ≤ i // 2 checked before each NodeAdder call. -/
noncomputable def GraphGen.loopGen {S M A : Type _}
    [AddCommMonoid S] [AddCommMonoid M] [AddCommMonoid A] [Mul A]
    (gg : GraphGen S M A) (nodeNoise : ℕ → ℕ → ℕ → ℝ) (binNoise : ℕ → ℕ → ℕ → ℝ)
    (catNoise : ℕ → ℕ → ℕ → ℕ → ℝ) (edgeFuel : ℕ) :
    ℕ → ℕ → Graph S → ℝ → Option (Graph S × ℝ)
  | 0, _, _, _ => none
  | fuel + 1, i, g, loss =>
    if (match gg.n_max_nodes with | some k => decide (k ≤ i / 2) | none => false) then
      some (g, loss)
    else
      let r := gg.node_adder.forward (nodeNoise i) g none
      if r.1.running.any (fun x => x) = false then some (r.1, loss + r.2)
      else
        match gg.edge_adder.forward edgeFuel (binNoise i) (catNoise i) r.1 none with
        | none => none
        | some (g2, ledge) =>
          GraphGen.loopGen gg nodeNoise binNoise catNoise edgeFuel fuel (i + 2) g2
            (loss + r.2 + ledge)

/-- GraphGen.forward with ref_output = None: start from the empty graph. -/
noncomputable def GraphGen.forwardGen {S M A : Type _}
    [AddCommMonoid S] [AddCommMonoid M] [AddCommMonoid A] [Mul A]
    (gg : GraphGen S M A) (nodeNoise : ℕ → ℕ → ℕ → ℝ) (binNoise : ℕ → ℕ → ℕ → ℝ)
    (catNoise : ℕ → ℕ → ℕ → ℕ → ℝ) (edgeFuel fuel : ℕ) (batch_size : ℕ) :
    Option (Graph S × ℝ) :=
  GraphGen.loopGen gg nodeNoise binNoise catNoise edgeFuel fuel 0 (Graph.init S batch_size) 0

/-- GraphGen.generate: self(None, batch_size, device)[0] — the first component
of the generation-mode forward pass, i.e. the final Graph itself. -/
noncomputable def GraphGen.generate {S M A : Type _}
    [AddCommMonoid S] [AddCommMonoid M] [AddCommMonoid A] [Mul A]
    (gg : GraphGen S M A) (nodeNoise : ℕ → ℕ → ℕ → ℝ) (binNoise : ℕ → ℕ → ℕ → ℝ)
    (catNoise : ℕ → ℕ → ℕ → ℕ → ℝ) (edgeFuel fuel : ℕ) (batch_size : ℕ) :
    Option (Graph S) :=
  (GraphGen.forwardGen gg nodeNoise binNoise catNoise edgeFuel fuel batch_size).map Prod.fst

/-! ### Small getD utilities -/

theorem getD_true_lt (l : List Bool) (b : ℕ) (h : l.getD b false = true) : b < l.length := by
  by_contra hge
  rw [List.getD_eq_default _ _ (by omega)] at h
  exact Bool.false_ne_true h

theorem getD_map {α β : Type _} (f : α → β) (d : β) (d' : α) :
    ∀ (l : List α) (i : ℕ), i < l.length → (l.map f).getD i d = f (l.getD i d')
  | [], i, h => by simp at h
  | a :: l, 0, _ => by simp
  | a :: l, i + 1, h => by
    simpa using getD_map f d d' l i (Nat.lt_of_succ_lt_succ h)

theorem getD_range_map {α : Type _} (f : ℕ → α) (d : α) (n b : ℕ) (h : b < n) :
    ((List.range n).map f).getD b d = f b := by
  rw [getD_map f d 0 _ _ (by simpa using h)]
  congr 1
  rw [List.getD_eq_getElem?_getD, List.getElem?_range h]
  rfl

theorem zipWith_sel_run_getD (sel : List ℕ) (run : List Bool) (b : ℕ)
    (h : (List.zipWith (fun s r => decide (s ≠ 0) && r) sel run).getD b false = true) :
    run.getD b false = true := by
  induction sel generalizing run b with
  | nil => simp [List.zipWith] at h
  | cons s sel ih =>
    cases run with
    | nil => simp [List.zipWith] at h
    | cons r run =>
      cases b with
      | zero =>
        simp only [List.zipWith, List.getD_cons_zero] at h ⊢
        exact (Bool.and_eq_true_iff.1 h).2
      | succ b =>
        simp only [List.zipWith, List.getD_cons_succ] at h ⊢
        exact ih run b h

theorem zipWith_run_need_getD (run : List Bool) (need : List Bool) (b : ℕ)
    (h : (List.zipWith (fun r n => r && n) run need).getD b false = true) :
    run.getD b false = true := by
  induction run generalizing need b with
  | nil => simp [List.zipWith] at h
  | cons r run ih =>
    cases need with
    | nil => simp [List.zipWith] at h
    | cons n need =>
      cases b with
      | zero =>
        simp only [List.zipWith, List.getD_cons_zero] at h ⊢
        exact (Bool.and_eq_true_iff.1 h).1
      | succ b =>
        simp only [List.zipWith, List.getD_cons_succ] at h ⊢
        exact ih need b h

theorem length_scatterArange :
    ∀ (k : ℕ) (m : List Bool) (l : List ℕ), (scatterArange k m l).length = l.length
  | _, _, [] => by simp [scatterArange]
  | _, [], _ :: _ => rfl
  | k, true :: m, _ :: l => by
    simpa [scatterArange] using length_scatterArange (k + 1) m l
  | k, false :: m, o :: l => by
    simpa [scatterArange] using length_scatterArange k m l

theorem bind_const_length {α β : Type _} (f : α → List β) (T : ℕ)
    (hf : ∀ a, (f a).length = T) : ∀ l : List α, (l.bind f).length = l.length * T
  | [] => by simp
  | a :: l => by
    simp only [List.cons_bind, List.length_append, hf a, bind_const_length f T hf l,
      List.length_cons]
    ring

theorem bind_replicate_getD (T : ℕ) :
    ∀ (row : List Bool) (j c : ℕ), j < row.length → c < T →
      (row.bind (fun o => List.replicate T o)).getD (j * T + c) false = row.getD j false
  | [], j, _, hj, _ => by simp at hj
  | o :: row, 0, c, _, hc => by
    simp only [List.cons_bind, Nat.zero_mul, Nat.zero_add, List.getD_cons_zero]
    rw [List.getD_eq_getElem?_getD, List.getElem?_append_left (by simpa using hc)]
    simp [List.getElem?_replicate, hc]
  | o :: row, j + 1, c, hj, hc => by
    have harith : (j + 1) * T + c = T + (j * T + c) := by ring
    simp only [List.cons_bind, harith, List.getD_cons_succ]
    rw [List.getD_eq_getElem?_getD, List.getElem?_append_right (by simp), List.length_replicate]
    simp only [Nat.add_sub_cancel_left]
    rw [← List.getD_eq_getElem?_getD]
    exact bind_replicate_getD T row j c (Nat.lt_of_succ_lt_succ hj) hc

theorem countP_oneHot_append (batch : ℕ) (b : ℕ) (mask : List Bool) :
    ((trueIdxs 0 mask).map (fun i => oneHot batch i)).countP
      (fun col => col.getD b false) ≤ 1 := by
  rw [List.countP_map]
  by_cases hb : b < batch
  · have hkey : (trueIdxs 0 mask).countP
        ((fun col => col.getD b false) ∘ (fun i => oneHot batch i)) =
        (trueIdxs 0 mask).count b := by
      rw [List.count]
      refine List.countP_congr ?_
      intro i _
      simp only [Function.comp]
      rw [oneHot_getD batch i b hb]
      simp only [decide_eq_true_eq, beq_iff_eq]
      exact ⟨fun h => h.symm, fun h => h.symm⟩
    rw [hkey]
    exact (List.nodup_iff_count_le_one.1 (trueIdxs_nodup 0 mask)) b
  · have hzero : (trueIdxs 0 mask).countP
        ((fun col => col.getD b false) ∘ (fun i => oneHot batch i)) = 0 := by
      refine List.countP_eq_zero.2 ?_
      intro i _
      simp only [Function.comp]
      rw [List.getD_eq_default _ _ (by simpa using Nat.le_of_not_lt hb)]
      simp
    rw [hzero]
    omega

/-! ### Claim C1 -/

/-- Amended C1: each per-round loss term gates terminated elements out of the
numerator only; the averaging denominator stays the full batch size, so the
gated loss equals the running-subset mean scaled by count/batch, not the
running-subset mean itself. -/
theorem claim_C1 {F : Type _} [Field F] [CharZero F] (l : List F) (running : List Bool)
    (hlen : running.length = l.length) (hpos : 0 < running.count true) :
    loss_running_gate l running =
      ((running.count true : F) / (l.length : F)) * running_subset_mean l running := by
  have hcount_le : running.count true ≤ running.length := List.count_le_length _ _
  have hlpos : 0 < l.length := by omega
  have hc : ((running.count true : F)) ≠ 0 := Nat.cast_ne_zero.2 (by omega)
  have hl : ((l.length : F)) ≠ 0 := Nat.cast_ne_zero.2 (by omega)
  rw [loss_running_gate, running_subset_mean, div_mul_div_comm]
  rw [div_eq_div_iff hl (by exact mul_ne_zero hl hc)]
  ring

/-- C1 counterexample: with per-element losses [2, 4] and running = [true,
false], the code's gated loss is 1 (division by the full batch size 2) while
the running-subset mean demanded by the claim is 2. -/
theorem claim_C1_counterexample :
    loss_running_gate ([2, 4] : List ℚ) [true, false] = 1 ∧
    running_subset_mean ([2, 4] : List ℚ) [true, false] = 2 ∧
    loss_running_gate ([2, 4] : List ℚ) [true, false] ≠
      running_subset_mean ([2, 4] : List ℚ) [true, false] := by
  refine ⟨?_, ?_, ?_⟩ <;> norm_num [loss_running_gate, running_subset_mean]

/-- Witness for claim_C1 at a concrete input. -/
theorem claim_C1_witness :
    loss_running_gate ([2, 4] : List ℚ) [true, false] =
      ((([true, false] : List Bool).count true : ℚ) / (([2, 4] : List ℚ).length : ℚ)) *
        running_subset_mean ([2, 4] : List ℚ) [true, false] :=
  claim_C1 [2, 4] [true, false] (by decide) (by decide)

/-! ### Claim C10 -/

/-- C10: sample_softmax selects exactly the arg-max of the noisy logits (the
intermediate softmax never changes the selected index), and consequently
masked_softmax never selects a masked-out entry as long as the batch element
has at least one unmasked entry. -/
theorem claim_C10 (t : List (WithBot ℝ)) (noise : ℕ → ℝ) (tr : List ℝ) (mask : List Bool) :
    sample_softmax noise t = argmaxFirst (addNoise noise t) ∧
    ((∃ i, i < tr.length ∧ i < mask.length ∧ mask.getD i false = true) →
      mask.getD (masked_softmax noise tr mask) false = true) := by
  refine ⟨sample_softmax_eq_argmax noise t, fun hex => ?_⟩
  exact (masked_softmax_sound noise tr mask hex).2

/-- Witness for claim_C10 at a concrete input. -/
theorem claim_C10_witness :
    (0 < ([0] : List ℝ).length ∧ 0 < [true].length ∧ [true].getD 0 false = true) ∧
    [true].getD (masked_softmax (fun _ => 0) [0] [true]) false = true :=
  ⟨⟨by simp, by simp, by simp⟩,
    (claim_C10 [] (fun _ => 0) [0] [true]).2 ⟨0, by simp, by simp, by simp⟩⟩

/-! ### Claim C3 -/

theorem zipWith_owner_zero {A : Type _} [AddCommMonoid A] (b : ℕ) :
    ∀ (cols : List (List Bool)) (gated : List A),
      (∀ col ∈ cols, col.getD b false = false) →
      ∀ x ∈ List.zipWith (fun col x => if col.getD b false then x else 0) cols gated, x = 0
  | [], _, _ => by simp
  | _ :: _, [], _ => by simp
  | col :: cols, a :: gated, h => by
    simp only [List.zipWith, List.mem_cons]
    rintro x (rfl | hx)
    · rw [h col (List.mem_cons_self _ _)]
      simp
    · exact zipWith_owner_zero b cols gated
        (fun c hc => h c (List.mem_cons_of_mem _ hc)) x hx

/-- Amended C3: the Aggregator returns the bias (or zero) rows only when the
whole graph has zero nodes; in a nonempty graph, a batch element owning zero
nodes gets the dropout image of the zero vector (zero whenever dropout fixes
zero) — never the bias — and its row is independent of other elements' data. -/
theorem claim_C3 {S A : Type _} [AddCommMonoid A] [Mul A]
    (m : Aggregator S A) (g : Graph S) (b : ℕ) :
    (g.nodes = [] →
      m.forward g = (match m.bias_if_empty with
        | some bias => List.replicate g.batch_size bias
        | none => List.replicate g.batch_size 0)) ∧
    (g.nodes ≠ [] → b < g.batch_size → m.drop b 0 = 0 →
      (∀ col ∈ g.owner_masks, col.getD b false = false) →
      (m.forward g).getD b 0 = 0) := by
  constructor
  · intro hempty
    rw [Aggregator.forward, if_pos (by simp [hempty])]
  · intro hne hb hdrop hcols
    rw [Aggregator.forward, if_neg (by simpa using hne)]
    rw [getD_range_map _ 0 _ b hb]
    rw [List.sum_eq_zero (zipWith_owner_zero b g.owner_masks _ hcols)]
    exact hdrop

/-- Concrete aggregator with the learned bias configured (A = ℚ). -/
def aggQ : Aggregator ℚ ℚ :=
  { transform := fun _ => 1
    gate := fun _ => 1
    bias_if_empty := some 5
    drop := fun _ x => x }

/-- Concrete graph: one node, owned by batch element 0; element 1 owns no
nodes. -/
def gQ : Graph ℚ :=
  { batch_size := 2
    nodes := [0]
    node_types := [0]
    edge_source := []
    edge_dest := []
    edge_features := []
    edge_types := []
    owner_masks := [[true, false]]
    last_inserted_node := [0, 0]
    running := [true, true] }

/-- C3 counterexample: with bias_if_empty = 5 configured and a nonempty graph,
the output row of the empty batch element 1 is 0, not the bias 5. -/
theorem claim_C3_counterexample :
    (aggQ.forward gQ).getD 1 0 = 0 ∧ aggQ.bias_if_empty = some 5 ∧ (0 : ℚ) ≠ 5 := by
  refine ⟨?_, rfl, by norm_num⟩
  norm_num [Aggregator.forward, aggQ, gQ, List.range_succ]

/-- Witness for claim_C3 at a concrete input. -/
theorem claim_C3_witness : (aggQ.forward gQ).getD 1 0 = 0 :=
  (claim_C3 aggQ gQ 1).2 (by decide) (by decide) rfl (by decide)

/-! ### Preservation lemmas for the EdgeAdder loop -/

theorem EdgeAdder.loop_preserves {S M A : Type _}
    [AddCommMonoid S] [AddCommMonoid M] [AddCommMonoid A] [Mul A]
    (m : EdgeAdder S M A) (bn : ℕ → ℕ → ℝ) (cn : ℕ → ℕ → ℕ → ℝ)
    (ref : Option (List (List ℕ × List ℕ))) (nn : List S) :
    ∀ (fuel ai : ℕ) (running : List Bool) (g : Graph S) (loss : ℝ)
      (g' : Graph S) (l' : ℝ),
      EdgeAdder.loop m bn cn ref nn fuel ai running g loss = some (g', l') →
      g'.batch_size = g.batch_size ∧ g'.nodes.length = g.nodes.length ∧
      g'.node_types = g.node_types ∧ g'.owner_masks = g.owner_masks ∧
      g'.last_inserted_node = g.last_inserted_node ∧ g'.running = g.running ∧
      (∃ ds, g'.edge_dest = g.edge_dest ++ ds) ∧
      (∃ ss, g'.edge_source = g.edge_source ++ ss) ∧
      (∃ fs, g'.edge_features = g.edge_features ++ fs) ∧
      (∃ ts, g'.edge_types = g.edge_types ++ ts)
  | 0, ai, running, g, loss, g', l' => by
    intro h
    exact absurd h (by simp [EdgeAdder.loop])
  | fuel + 1, ai, running, g, loss, g', l' => by
    intro h
    obtain ⟨pb, pn, pnt, pes, ped, pef, pet, pom, plast, prun⟩ :=
      MultilayerPropagator.layers_preserve m.propagator g (some running)
    simp only [EdgeAdder.loop] at h
    split at h
    · exact absurd h (by simp)
    · split at h
      · -- the loop exits and returns the propagated graph unchanged
        simp only [Option.some.injEq, Prod.mk.injEq] at h
        obtain ⟨hg, -⟩ := h
        subst hg
        exact ⟨pb, pn, pnt, pom, plast, prun,
          ⟨[], by rw [List.append_nil]; exact ped⟩,
          ⟨[], by rw [List.append_nil]; exact pes⟩,
          ⟨[], by rw [List.append_nil]; exact pef⟩,
          ⟨[], by rw [List.append_nil]; exact pet⟩⟩
      · -- the loop appended one block of edges and recursed
        obtain ⟨ib, inn, int, iom, ilast, irun, ⟨ds, hds⟩, ⟨ss, hss⟩, ⟨fs, hfs⟩, ⟨ts, hts⟩⟩ :=
          EdgeAdder.loop_preserves m bn cn ref nn fuel _ _ _ _ _ _ h
        refine ⟨ib.trans pb, inn.trans pn, int.trans pnt, iom.trans pom,
          ilast.trans plast, irun.trans prun, ?_, ?_, ?_, ?_⟩
        · exact ⟨_, by rw [hds]; simp only [EdgeAdder.append_edges, List.append_assoc]; rw [ped]⟩
        · exact ⟨_, by rw [hss]; simp only [EdgeAdder.append_edges, List.append_assoc]; rw [pes]⟩
        · exact ⟨_, by rw [hfs]; simp only [EdgeAdder.append_edges, List.append_assoc]; rw [pef]⟩
        · exact ⟨_, by rw [hts]; simp only [EdgeAdder.append_edges, List.append_assoc]; rw [pet]⟩

theorem EdgeAdder.forward_preserves {S M A : Type _}
    [AddCommMonoid S] [AddCommMonoid M] [AddCommMonoid A] [Mul A]
    (fuel : ℕ) (m : EdgeAdder S M A) (bn : ℕ → ℕ → ℝ) (cn : ℕ → ℕ → ℕ → ℝ)
    (g : Graph S) (ref : Option (List (List ℕ × List ℕ))) (g' : Graph S) (l' : ℝ)
    (h : EdgeAdder.forward fuel m bn cn g ref = some (g', l')) :
    g'.batch_size = g.batch_size ∧ g'.nodes.length = g.nodes.length ∧
    g'.node_types = g.node_types ∧ g'.owner_masks = g.owner_masks ∧
    g'.last_inserted_node = g.last_inserted_node ∧ g'.running = g.running := by
  rw [EdgeAdder.forward.eq_def] at h
  split at h
  · split at h
    · simp only [Option.some.injEq, Prod.mk.injEq] at h
      obtain ⟨hg, -⟩ := h
      subst hg
      exact ⟨rfl, rfl, rfl, rfl, rfl, rfl⟩
    · obtain ⟨hb, hn, hnt, hom, hlast, hrun, -, -, -, -⟩ :=
        EdgeAdder.loop_preserves m bn cn _ _ fuel _ _ _ _ _ _ h
      exact ⟨hb, hn, hnt, hom, hlast, hrun⟩
  · obtain ⟨hb, hn, hnt, hom, hlast, hrun, -, -, -, -⟩ :=
      EdgeAdder.loop_preserves m bn cn _ _ fuel _ _ _ _ _ _ h
    exact ⟨hb, hn, hnt, hom, hlast, hrun⟩

theorem NodeAdder.forward_running_sub {S M A : Type _}
    [AddCommMonoid S] [AddCommMonoid M] [AddCommMonoid A] [Mul A]
    (m : NodeAdder S M A) (noise : ℕ → ℕ → ℝ) (g : Graph S) (ref : Option (List ℕ))
    (b : ℕ) (h : (m.forward noise g ref).1.running.getD b false = true) :
    g.running.getD b false = true := by
  have hrun := (MultilayerPropagator.layers_preserve m.propagator g none).2.2.2.2.2.2.2.2.2
  cases ref with
  | none =>
    simp only [NodeAdder.forward] at h
    split at h
    all_goals
      have hzw := zipWith_sel_run_getD _ _ b h
      rwa [hrun] at hzw
  | some r =>
    simp only [NodeAdder.forward] at h
    split at h
    all_goals
      have hzw := zipWith_sel_run_getD _ _ b h
      rwa [hrun] at hzw

/-! ### Claim C5 -/

/-- C5: the per-batch-element running flag is monotone within one pass —
NodeAdder can only turn entries off (its output running at b implies the input
running at b), EdgeAdder returns graph.running untouched (it only keeps a
local copy), and Propagator does not write running at all. -/
theorem claim_C5 {S M A : Type _}
    [AddCommMonoid S] [AddCommMonoid M] [AddCommMonoid A] [Mul A] :
    (∀ (m : NodeAdder S M A) (noise : ℕ → ℕ → ℝ) (g : Graph S)
        (ref : Option (List ℕ)) (b : ℕ),
        (m.forward noise g ref).1.running.getD b false = true →
        g.running.getD b false = true) ∧
    (∀ (fuel : ℕ) (m : EdgeAdder S M A) (bn : ℕ → ℕ → ℝ) (cn : ℕ → ℕ → ℕ → ℝ)
        (g : Graph S) (ref : Option (List (List ℕ × List ℕ))) (g' : Graph S) (l' : ℝ),
        EdgeAdder.forward fuel m bn cn g ref = some (g', l') → g'.running = g.running) ∧
    (∀ (p : Propagator S M) (g : Graph S) (mo : Option (List Bool)),
        (p.forward g mo).running = g.running) :=
  ⟨fun m noise g ref b h => NodeAdder.forward_running_sub m noise g ref b h,
   fun fuel m bn cn g ref g' l' h =>
     (EdgeAdder.forward_preserves fuel m bn cn g ref g' l' h).2.2.2.2.2,
   fun p g mo => (Propagator.step_preserves p g mo).2.2.2.2.2.2.2.2.2⟩

/-- Trivial aggregator over the integers, used by concrete instances. -/
def aggZ : Aggregator ℤ ℤ :=
  { transform := fun _ => 0
    gate := fun _ => 0
    bias_if_empty := none
    drop := fun _ x => x }

/-- Concrete EdgeAdder over the integers with constant-zero layers. -/
def edgeZ : EdgeAdder ℤ ℤ ℤ :=
  { pad_char := 255
    n_edge_dtypes := 2
    n_max_edges := none
    propagator := []
    edge_decision_aggregator := aggZ
    edge_init := fun _ => 0
    edge_init_aggregator := aggZ
    f_addedge_aggregated := fun _ => 0
    f_addedge_new := fun _ => 0
    fs_layer1_target := fun _ => [0, 0]
    fs_layer1_new := fun _ => [0, 0] }

/-- Concrete one-round propagator over the integers. -/
def propZ : Propagator ℤ ℤ :=
  { message_node := fun s => s
    message_features := fun s => s
    message_layer_2 := fun x => x
    drop_messages := fun _ x => x
    drop_inputs := fun _ x => x
    node_update_fn := fun inp s => inp + s }

/-- Concrete graph over the integers: two nodes, one edge. -/
def gZ : Graph ℤ :=
  { batch_size := 1
    nodes := [3, 4]
    node_types := [0, 0]
    edge_source := [0]
    edge_dest := [1]
    edge_features := [7]
    edge_types := [1]
    owner_masks := [[true], [true]]
    last_inserted_node := [1]
    running := [true] }

/-- Witness for claim_C5 at concrete inputs: the EdgeAdder part applied to an
early-returning training call, and the Propagator part. -/
theorem claim_C5_witness :
    gZ.running = gZ.running ∧ (propZ.forward gZ none).running = gZ.running :=
  ⟨(@claim_C5 ℤ ℤ ℤ _ _ _ _).2.1 1 edgeZ (fun _ _ => 0) (fun _ _ _ => 0)
      gZ (some []) gZ 0 rfl,
   (@claim_C5 ℤ ℤ ℤ _ _ _ _).2.2 propZ gZ none⟩

/-! ### Claim C9 -/

theorem mapWithIdx_congr {α β : Type _} (f f' : ℕ → α → β) :
    ∀ (k : ℕ) (l : List α), (∀ i a, f i a = f' i a) →
      mapWithIdx f k l = mapWithIdx f' k l
  | _, [], _ => rfl
  | k, a :: l, h => by
    simp only [mapWithIdx_cons, h k a, mapWithIdx_congr f f' (k + 1) l h]

/-- Reversal of the stored direction of an arbitrary subset of edges. -/
def swapEdges {S : Type _} (flip : ℕ → Bool) (g : Graph S) : Graph S :=
  { g with
    edge_source :=
      mapWithIdx (fun i p => if flip i then p.2 else p.1) 0 (g.edge_source.zip g.edge_dest)
    edge_dest :=
      mapWithIdx (fun i p => if flip i then p.1 else p.2) 0 (g.edge_source.zip g.edge_dest) }

theorem swap_msum {M : Type _} [AddCommMonoid M] (flip : ℕ → Bool) :
    ∀ (k : ℕ) (src dest : List ℕ), src.length = dest.length → ∀ (f : ℕ → M),
      List.zipWith (fun x y => x + y)
        ((mapWithIdx (fun i p => if flip i then p.2 else p.1) k (src.zip dest)).map f)
        ((mapWithIdx (fun i p => if flip i then p.1 else p.2) k (src.zip dest)).map f) =
      List.zipWith (fun x y => x + y) (src.map f) (dest.map f)
  | _, [], [], _, _ => rfl
  | _, [], _ :: _, h, _ => by simp at h
  | _, _ :: _, [], h, _ => by simp at h
  | k, s :: src, d :: dest, h, f => by
    have ih := swap_msum flip (k + 1) src dest (by simpa using h) f
    simp only [List.zip_cons_cons, mapWithIdx_cons, List.map_cons, List.zipWith_cons_cons, ih]
    by_cases hf : flip k
    · simp [hf, add_comm (f d) (f s)]
    · simp [hf]

theorem swap_scatter {M : Type _} [AddCommMonoid M] (flip : ℕ → Bool) :
    ∀ (k : ℕ) (src dest : List ℕ), src.length = dest.length → ∀ (msgs : List M) (i : ℕ),
      (((mapWithIdx (fun j p => if flip j then p.1 else p.2) k (src.zip dest)).zip msgs).map
          (fun q => if q.1 = i then q.2 else 0)).sum +
      (((mapWithIdx (fun j p => if flip j then p.2 else p.1) k (src.zip dest)).zip msgs).map
          (fun q => if q.1 = i then q.2 else 0)).sum =
      ((dest.zip msgs).map (fun q => if q.1 = i then q.2 else 0)).sum +
      ((src.zip msgs).map (fun q => if q.1 = i then q.2 else 0)).sum
  | _, [], [], _, _, _ => by simp
  | _, [], _ :: _, h, _, _ => by simp at h
  | _, _ :: _, [], h, _, _ => by simp at h
  | k, s :: src, d :: dest, h, [], i => by simp
  | k, s :: src, d :: dest, h, m :: msgs, i => by
    have ih := swap_scatter flip (k + 1) src dest (by simpa using h) msgs i
    simp only [List.zip_cons_cons, mapWithIdx_cons, List.map_cons, List.sum_cons]
    rw [add_add_add_comm, add_add_add_comm ((if d = i then m else 0)), ih]
    cases hf : flip k
    · simp [hf]
    · simp only [hf, if_true]
      rw [add_comm (if s = i then m else 0) (if d = i then m else 0)]

/-- C9: Propagator.forward is insensitive to the stored edge direction —
swapping edge_source and edge_dest for an arbitrary subset of the edges leaves
the produced node states unchanged, because each message is a symmetric
function of the two endpoint states and both endpoints accumulate every
incident message. -/
theorem claim_C9 {S M : Type _} [AddCommMonoid M] (p : Propagator S M) (g : Graph S)
    (mo : Option (List Bool)) (flip : ℕ → Bool)
    (hlen : g.edge_source.length = g.edge_dest.length) :
    (p.forward (swapEdges flip g) mo).nodes = (p.forward g mo).nodes := by
  simp only [Propagator.forward, swapEdges]
  by_cases hc : (g.nodes.isEmpty || g.edge_features.isEmpty) = true
  · rw [if_pos hc, if_pos hc]
  · rw [if_neg hc, if_neg hc]
    show mapWithIdx _ 0 g.nodes = mapWithIdx _ 0 g.nodes
    refine mapWithIdx_congr _ _ 0 g.nodes ?_
    intro i s
    rw [swap_msum flip 0 g.edge_source g.edge_dest hlen]
    rw [swap_scatter flip 0 g.edge_source g.edge_dest hlen _ i]
    simp only [node_update_mask]

/-- Witness for claim_C9 at concrete inputs: flipping the single edge of the
concrete two-node graph leaves the propagated node states unchanged. -/
theorem claim_C9_witness :
    (propZ.forward (swapEdges (fun _ => true) gZ) none).nodes = (propZ.forward gZ none).nodes :=
  claim_C9 propZ gZ none (fun _ => true) (by decide)

/-! ### Characterization of NodeAdder.forward -/

@[simp] theorem length_remap_pad (t : List ℕ) (p : ℕ) (f : ℕ → ℕ) :
    (remap_pad t p f).length = t.length := by
  simp [remap_pad]

theorem NodeAdder.forward_spec {S M A : Type _}
    [AddCommMonoid S] [AddCommMonoid M] [AddCommMonoid A] [Mul A]
    (m : NodeAdder S M A) (noise : ℕ → ℕ → ℝ) (g : Graph S) (ref : Option (List ℕ))
    (hrun : g.running.length = g.batch_size)
    (href : ∀ r, ref = some r → r.length = g.batch_size) :
    (m.forward noise g ref).1.batch_size = g.batch_size ∧
    (m.forward noise g ref).1.running.length = g.batch_size ∧
    (m.forward noise g ref).1.last_inserted_node.length = g.last_inserted_node.length ∧
    ((m.forward noise g ref).1.owner_masks = g.owner_masks ∨
      (m.forward noise g ref).1.owner_masks = g.owner_masks ++
        (trueIdxs 0 ((m.forward noise g ref).1.running)).map (fun b => oneHot g.batch_size b)) ∧
    (∃ k, (m.forward noise g ref).1.nodes.length = g.nodes.length + k ∧
      (m.forward noise g ref).1.node_types.length = g.node_types.length + k) := by
  obtain ⟨pb, pn, pnt, pes, ped, pef, pet, pom, plast, prun⟩ :=
    MultilayerPropagator.layers_preserve m.propagator g none
  have hrun1 : (m.propagator.forward g none).running.length = g.batch_size := by
    rw [prun, hrun]
  cases ref with
  | none =>
    have hsel : (NodeAdder.gen_select m noise (m.propagator.forward g none)).length
        = g.batch_size := by rw [NodeAdder.gen_select_length, pb]
    simp only [NodeAdder.forward]
    split
    · -- a node is appended for every still-running batch element
      have hmask : (List.zipWith (fun s r => decide (s ≠ 0) && r)
          (NodeAdder.gen_select m noise (m.propagator.forward g none))
          (m.propagator.forward g none).running).length = g.batch_size := by
        rw [List.length_zipWith, hsel, hrun1, min_self]
      refine ⟨pb, hmask, ?_, Or.inr ?_, ?_⟩
      · simp only [length_scatterArange]
        exact congrArg List.length plast
      · simp only [pom, pb]
      · refine ⟨(trueIdxs 0 (List.zipWith (fun s r => decide (s ≠ 0) && r)
          (NodeAdder.gen_select m noise (m.propagator.forward g none))
          (m.propagator.forward g none).running)).length, ?_, ?_⟩
        · simp only [List.length_append, pn]
          congr 1
          refine length_selectMask _ _ ?_
          simp only [hmask, List.length_zipWith, List.length_map, hsel,
            Aggregator.forward_length, pb]
          omega
        · simp only [List.length_append, List.length_map, pnt]
          congr 1
          refine length_selectMask _ _ ?_
          simp only [hmask, hsel]
          omega
    · refine ⟨pb, ?_, congrArg List.length plast, Or.inl pom, 0, pn,
        congrArg List.length pnt⟩
      simp only [List.length_zipWith, hsel, hrun1, min_self]
  | some r =>
    have hr := href r rfl
    have hsel : (remap_pad r m.pad_char (fun x => x + 1)).length = g.batch_size := by
      rw [length_remap_pad, hr]
    simp only [NodeAdder.forward]
    split
    · have hmask : (List.zipWith (fun s r2 => decide (s ≠ 0) && r2)
          (remap_pad r m.pad_char (fun x => x + 1))
          (m.propagator.forward g none).running).length = g.batch_size := by
        rw [List.length_zipWith, hsel, hrun1, min_self]
      refine ⟨pb, hmask, ?_, Or.inr ?_, ?_⟩
      · simp only [length_scatterArange]
        exact congrArg List.length plast
      · simp only [pom, pb]
      · refine ⟨(trueIdxs 0 (List.zipWith (fun s r2 => decide (s ≠ 0) && r2)
          (remap_pad r m.pad_char (fun x => x + 1))
          (m.propagator.forward g none).running)).length, ?_, ?_⟩
        · simp only [List.length_append, pn]
          congr 1
          refine length_selectMask _ _ ?_
          simp only [hmask, List.length_zipWith, List.length_map, hsel,
            Aggregator.forward_length, pb]
          omega
        · simp only [List.length_append, List.length_map, pnt]
          congr 1
          refine length_selectMask _ _ ?_
          simp only [hmask, hsel]
          omega
    · refine ⟨pb, ?_, congrArg List.length plast, Or.inl pom, 0, pn,
        congrArg List.length pnt⟩
      simp only [List.length_zipWith, hsel, hrun1, min_self]

/-! ### Claim C4 -/

/-- Graph states reachable during a pass: any sequence of Propagator,
NodeAdder and EdgeAdder calls (either mode) starting from the freshly
initialized graph.  Training-mode NodeAdder calls carry the reference shape
contract (one label per batch element) that torch enforces through tensor
shapes. -/
inductive Reach {S : Type} : Graph S → Prop where
  | init (batch : ℕ) : Reach (Graph.init S batch)
  | prop {M : Type} [AddCommMonoid M] (p : Propagator S M) (mo : Option (List Bool))
      {g : Graph S} (h : Reach g) : Reach (p.forward g mo)
  | node [AddCommMonoid S] {M A : Type} [AddCommMonoid M] [AddCommMonoid A] [Mul A]
      (m : NodeAdder S M A) (noise : ℕ → ℕ → ℝ) (ref : Option (List ℕ)) {g : Graph S}
      (h : Reach g) (href : ∀ r, ref = some r → r.length = g.batch_size) :
      Reach (m.forward noise g ref).1
  | edge [AddCommMonoid S] {M A : Type} [AddCommMonoid M] [AddCommMonoid A] [Mul A]
      (fuel : ℕ) (m : EdgeAdder S M A) (bn : ℕ → ℕ → ℝ) (cn : ℕ → ℕ → ℕ → ℝ)
      (ref : Option (List (List ℕ × List ℕ))) {g g' : Graph S} {l' : ℝ} (h : Reach g)
      (he : EdgeAdder.forward fuel m bn cn g ref = some (g', l')) : Reach g'

theorem reach_inv {S : Type} {g : Graph S} (h : Reach g) :
    g.running.length = g.batch_size ∧ ∀ col ∈ g.owner_masks, col.count true = 1 := by
  induction h with
  | init batch => exact ⟨by simp [Graph.init], by simp [Graph.init]⟩
  | prop p mo h ih =>
    obtain ⟨pb, pn, pnt, pes, ped, pef, pet, pom, plast, prun⟩ :=
      Propagator.step_preserves p _ mo
    exact ⟨by rw [prun, pb]; exact ih.1, by rw [pom]; exact ih.2⟩
  | node m noise ref h href ih =>
    obtain ⟨sb, srl, sll, sor, -⟩ := NodeAdder.forward_spec m noise _ ref ih.1 href
    refine ⟨by rw [srl, sb], ?_⟩
    rcases sor with hor | hor
    · rw [hor]
      exact ih.2
    · rw [hor]
      intro col hc
      rcases List.mem_append.1 hc with hc | hc
      · exact ih.2 col hc
      · rcases List.mem_map.1 hc with ⟨b, hb, rfl⟩
        have hblt := trueIdxs_lt 0 _ b hb
        rw [srl] at hblt
        exact oneHot_count _ b (by omega)
  | edge fuel m bn cn ref h he ih =>
    obtain ⟨hb, hn, hnt, hom, hlast, hrun⟩ :=
      EdgeAdder.forward_preserves fuel m bn cn _ ref _ _ he
    exact ⟨by rw [hrun, ih.1, hb], by rw [hom]; exact ih.2⟩

/-- C4: in every reachable graph state (any sequence of NodeAdder, EdgeAdder
and Propagator calls from the empty graph), every column of owner_masks has
exactly one true entry — each node is owned by exactly one batch element. -/
theorem claim_C4 {S : Type} {g : Graph S} (h : Reach g) :
    g.owner_masks.all (fun col => decide (col.count true = 1)) = true := by
  rw [List.all_eq_true]
  intro col hc
  exact decide_eq_true ((reach_inv h).2 col hc)

/-- Witness for claim_C4 at a concrete reachable state. -/
theorem claim_C4_witness :
    (Graph.init ℤ 2).owner_masks.all (fun col => decide (col.count true = 1)) = true :=
  claim_C4 (Reach.init 2)

/-! ### Lemmas about the EdgeAdder step helpers -/

@[simp] theorem sample_binary_length (rand : ℕ → ℝ) (t : List ℝ) :
    (sample_binary rand t).length = t.length := by
  simp [sample_binary]

@[simp] theorem EdgeAdder.gen_need_length {S M A : Type _} (m : EdgeAdder S M A)
    (bn1 : ℕ → ℝ) (ai : ℕ) (scores : List ℝ) :
    (EdgeAdder.gen_need m bn1 ai scores).length = scores.length := by
  rw [EdgeAdder.gen_need]
  split
  · split <;> simp
  · simp

theorem EdgeAdder.edge_logits_length {S M A : Type _} (m : EdgeAdder S M A)
    (nodes : List S) (nb : S)
    (hfs1 : ∀ s, (m.fs_layer1_target s).length = m.n_edge_dtypes)
    (hfs2 : ∀ s, (m.fs_layer1_new s).length = m.n_edge_dtypes) :
    (EdgeAdder.edge_logits m nodes nb).length = nodes.length * m.n_edge_dtypes := by
  refine bind_const_length _ m.n_edge_dtypes ?_ nodes
  intro nj
  rw [List.length_zipWith, hfs1, hfs2, min_self]

@[simp] theorem owner_row_length (cols : List (List Bool)) (b : ℕ) :
    (owner_row cols b).length = cols.length := by simp [owner_row]

theorem EdgeAdder.edge_mask_length {S M A : Type _} (m : EdgeAdder S M A)
    (cols : List (List Bool)) (b : ℕ) :
    (EdgeAdder.edge_mask m cols b).length = cols.length * m.n_edge_dtypes := by
  rw [EdgeAdder.edge_mask]
  rw [bind_const_length _ m.n_edge_dtypes (fun o => List.length_replicate _ _) _]
  rw [owner_row_length]

theorem EdgeAdder.edge_mask_getD {S M A : Type _} (m : EdgeAdder S M A)
    (cols : List (List Bool)) (b j c : ℕ) (hj : j < cols.length)
    (hc : c < m.n_edge_dtypes) :
    (EdgeAdder.edge_mask m cols b).getD (j * m.n_edge_dtypes + c) false =
      (cols.getD j []).getD b false := by
  rw [EdgeAdder.edge_mask,
    bind_replicate_getD m.n_edge_dtypes (owner_row cols b) j c (by simpa using hj) hc]
  rw [owner_row]
  exact getD_map _ false [] cols j hj

@[simp] theorem EdgeAdder.gen_selected_length {S M A : Type _} [AddCommMonoid S]
    (m : EdgeAdder S M A) (cn1 : ℕ → ℕ → ℝ) (g : Graph S) (nn : List S) :
    (EdgeAdder.gen_selected m cn1 g nn).length = g.batch_size := by
  simp [EdgeAdder.gen_selected]

theorem EdgeAdder.gen_selected_getD {S M A : Type _} [AddCommMonoid S]
    (m : EdgeAdder S M A) (cn1 : ℕ → ℕ → ℝ) (g : Graph S) (nn : List S)
    (b : ℕ) (hb : b < g.batch_size) :
    (EdgeAdder.gen_selected m cn1 g nn).getD b 0 =
      masked_softmax (cn1 b) (EdgeAdder.edge_logits m g.nodes (nn.getD b 0))
        (EdgeAdder.edge_mask m g.owner_masks b) := by
  rw [EdgeAdder.gen_selected]
  exact getD_range_map _ 0 _ b hb

/-- Soundness of one generation-mode selection: if batch element b owns at
least one node, its selected flat index decodes to an owned target node below
the node count and an edge type below n_edge_dtypes. -/
theorem EdgeAdder.gen_selected_sound {S M A : Type _} [AddCommMonoid S]
    (m : EdgeAdder S M A) (cn1 : ℕ → ℕ → ℝ) (g : Graph S) (nn : List S)
    (hT : 1 ≤ m.n_edge_dtypes)
    (hfs1 : ∀ s, (m.fs_layer1_target s).length = m.n_edge_dtypes)
    (hfs2 : ∀ s, (m.fs_layer1_new s).length = m.n_edge_dtypes)
    (hoc : g.owner_masks.length = g.nodes.length)
    (b : ℕ) (hb : b < g.batch_size)
    (hown : ∃ j, j < g.owner_masks.length ∧ (g.owner_masks.getD j []).getD b false = true) :
    (EdgeAdder.gen_selected m cn1 g nn).getD b 0 / m.n_edge_dtypes < g.nodes.length ∧
    (g.owner_masks.getD ((EdgeAdder.gen_selected m cn1 g nn).getD b 0 / m.n_edge_dtypes)
      []).getD b false = true ∧
    (EdgeAdder.gen_selected m cn1 g nn).getD b 0 % m.n_edge_dtypes < m.n_edge_dtypes := by
  obtain ⟨j, hj, hjtrue⟩ := hown
  have hT0 : 0 < m.n_edge_dtypes := hT
  have hlog : (EdgeAdder.edge_logits m g.nodes (nn.getD b 0)).length =
      g.nodes.length * m.n_edge_dtypes := EdgeAdder.edge_logits_length m _ _ hfs1 hfs2
  have hmask : (EdgeAdder.edge_mask m g.owner_masks b).length =
      g.owner_masks.length * m.n_edge_dtypes := EdgeAdder.edge_mask_length m _ b
  have hexidx : j * m.n_edge_dtypes + 0 < g.owner_masks.length * m.n_edge_dtypes := by
    have h2 := (Nat.mul_lt_mul_right hT0).2 (show j < g.owner_masks.length from hj)
    omega
  have hexidx2 : j * m.n_edge_dtypes + 0 < g.nodes.length * m.n_edge_dtypes := by
    rw [← hoc]
    exact hexidx
  have hsound := masked_softmax_sound (cn1 b)
    (EdgeAdder.edge_logits m g.nodes (nn.getD b 0)) (EdgeAdder.edge_mask m g.owner_masks b)
    ⟨j * m.n_edge_dtypes + 0, by rw [hlog]; exact hexidx2, by rw [hmask]; exact hexidx,
      by rw [EdgeAdder.edge_mask_getD m _ b j 0 hj hT0]; exact hjtrue⟩
  rw [EdgeAdder.gen_selected_getD m cn1 g nn b hb]
  set s := masked_softmax (cn1 b) (EdgeAdder.edge_logits m g.nodes (nn.getD b 0))
    (EdgeAdder.edge_mask m g.owner_masks b) with hs
  obtain ⟨hslt, hstrue⟩ := hsound
  rw [hlog, hmask, hoc] at hslt
  have hsn : s < g.nodes.length * m.n_edge_dtypes := by omega
  have hdiv : s / m.n_edge_dtypes < g.nodes.length :=
    Nat.div_lt_of_lt_mul (by rw [Nat.mul_comm]; exact hsn)
  refine ⟨hdiv, ?_, Nat.mod_lt s hT0⟩
  have hdecomp : s / m.n_edge_dtypes * m.n_edge_dtypes + s % m.n_edge_dtypes = s := by
    rw [Nat.mul_comm]
    exact Nat.div_add_mod s m.n_edge_dtypes
  have := EdgeAdder.edge_mask_getD m g.owner_masks b (s / m.n_edge_dtypes)
    (s % m.n_edge_dtypes) (by omega) (Nat.mod_lt s hT0)
  rw [hdecomp] at this
  rw [← this]
  exact hstrue

theorem getD_mem_of_lt {α : Type _} (l : List α) (k : ℕ) (d : α) (h : k < l.length) :
    l.getD k d ∈ l := by
  rw [List.getD_eq_getElem?_getD, List.getElem?_eq_getElem h]
  exact List.getElem_mem _

/-- Entrywise description of the edges appended by one loop step. -/
theorem EdgeAdder.append_edges_spec {S M A : Type _} [AddCommMonoid S] (m : EdgeAdder S M A)
    (selected_edge : List ℕ) (running : List Bool) (g : Graph S)
    (hrb : running.length = g.batch_size)
    (hse : g.batch_size ≤ selected_edge.length)
    (hlast : g.last_inserted_node.length = g.batch_size) :
    (EdgeAdder.append_edges m selected_edge running g).edge_dest.length =
      g.edge_dest.length + (trueIdxs 0 running).length ∧
    (EdgeAdder.append_edges m selected_edge running g).edge_source.length =
      g.edge_source.length + (trueIdxs 0 running).length ∧
    (EdgeAdder.append_edges m selected_edge running g).edge_features.length =
      g.edge_features.length + (trueIdxs 0 running).length ∧
    (EdgeAdder.append_edges m selected_edge running g).edge_types.length =
      g.edge_types.length + (trueIdxs 0 running).length ∧
    ∀ k', k' < (trueIdxs 0 running).length →
      ∃ b, b < g.batch_size ∧ running.getD b false = true ∧
        (EdgeAdder.append_edges m selected_edge running g).edge_dest.getD
          (g.edge_dest.length + k') 0 = g.last_inserted_node.getD b 0 ∧
        (EdgeAdder.append_edges m selected_edge running g).edge_source.getD
          (g.edge_source.length + k') 0 = selected_edge.getD b 0 / m.n_edge_dtypes ∧
        (EdgeAdder.append_edges m selected_edge running g).edge_types.getD
          (g.edge_types.length + k') 0 = selected_edge.getD b 0 % m.n_edge_dtypes % 256 ∧
        (EdgeAdder.append_edges m selected_edge running g).edge_features.getD
          (g.edge_features.length + k') 0 =
          m.edge_init (selected_edge.getD b 0 % m.n_edge_dtypes - 1) := by
  have hrl : running.length ≤ g.last_inserted_node.length := by omega
  have hrsel : running.length ≤ (selected_edge.map (fun e => e / m.n_edge_dtypes)).length := by
    rw [List.length_map]; omega
  have hrty : running.length ≤ (selected_edge.map (fun e => e % m.n_edge_dtypes)).length := by
    rw [List.length_map]; omega
  have hLd := length_selectMask running g.last_inserted_node hrl
  have hLs := length_selectMask running _ hrsel
  have hLt := length_selectMask running _ hrty
  refine ⟨?_, ?_, ?_, ?_, ?_⟩
  · simp only [EdgeAdder.append_edges, List.length_append, hLd]
  · simp only [EdgeAdder.append_edges, List.length_append, hLs]
  · simp only [EdgeAdder.append_edges, List.length_append, List.length_map, hLt]
  · simp only [EdgeAdder.append_edges, List.length_append, List.length_map, hLt]
  intro k' hk'
  set b := (trueIdxs 0 running).getD k' 0 with hbdef
  have hbmem : b ∈ trueIdxs 0 running := getD_mem_of_lt _ k' 0 hk'
  have hbrun : running.getD b false = true := by
    have := (mem_trueIdxs 0 running b).1 hbmem
    simpa using this.2
  have hblt : b < running.length := by
    have := trueIdxs_lt 0 running b hbmem
    omega
  refine ⟨b, by omega, hbrun, ?_, ?_, ?_, ?_⟩
  · simp only [EdgeAdder.append_edges]
    rw [List.getD_append_right _ _ _ _ (by omega), Nat.add_sub_cancel_left]
    rw [selectMask_eq_map_trueIdxs 0 running g.last_inserted_node hrl]
    exact getD_map _ 0 0 _ k' (by simpa using hk')
  · simp only [EdgeAdder.append_edges]
    rw [List.getD_append_right _ _ _ _ (by omega), Nat.add_sub_cancel_left]
    rw [selectMask_eq_map_trueIdxs 0 running _ hrsel]
    rw [getD_map _ 0 0 _ k' (by simpa using hk')]
    exact getD_map _ 0 0 selected_edge b (by omega)
  · simp only [EdgeAdder.append_edges]
    rw [List.getD_append_right _ _ _ _ (by omega), Nat.add_sub_cancel_left]
    rw [selectMask_eq_map_trueIdxs 0 running _ hrty]
    rw [List.map_map]
    rw [getD_map _ 0 0 _ k' (by simpa using hk')]
    simp only [Function.comp]
    rw [getD_map _ 0 0 selected_edge b (by omega)]
  · simp only [EdgeAdder.append_edges]
    rw [List.getD_append_right _ _ _ _ (by omega), Nat.add_sub_cancel_left]
    rw [selectMask_eq_map_trueIdxs 0 running _ hrty]
    rw [List.map_map]
    rw [getD_map _ 0 0 _ k' (by simpa using hk')]
    simp only [Function.comp]
    rw [getD_map _ 0 0 selected_edge b (by omega)]

/-! ### Termination and trace of the generation-mode edge loop -/

theorem zipWith_and_false_any (run : List Bool) (need : List Bool) :
    (List.zipWith (fun r n => r && n) run (need.map (fun _ => false))).any
      (fun x => x) = false := by
  induction run generalizing need with
  | nil => simp
  | cons r run ih =>
    cases need with
    | nil => simp
    | cons n need => simpa using ih need

theorem EdgeAdder.loop_gen_terminates {S M A : Type _}
    [AddCommMonoid S] [AddCommMonoid M] [AddCommMonoid A] [Mul A]
    (m : EdgeAdder S M A) (bn : ℕ → ℕ → ℝ) (cn : ℕ → ℕ → ℕ → ℝ) (nn : List S)
    (Mx : ℕ) (hcap : m.n_max_edges = some Mx) :
    ∀ (fuel ai : ℕ) (running : List Bool) (g : Graph S) (loss : ℝ),
      ai ≤ Mx → Mx + 1 ≤ ai + fuel →
      (EdgeAdder.loop m bn cn none nn fuel ai running g loss).isSome = true
  | 0, ai, running, g, loss, h1, h2 => absurd h2 (by omega)
  | fuel + 1, ai, running, g, loss, h1, h2 => by
    simp only [EdgeAdder.loop]
    split
    · simp
    · rename_i hcond
      by_cases hM : Mx ≤ ai
      · exfalso
        apply hcond
        rw [EdgeAdder.gen_need, hcap]
        simp only [if_pos hM]
        exact zipWith_and_false_any running _
      · exact EdgeAdder.loop_gen_terminates m bn cn nn Mx hcap fuel (ai + 1) _ _ _
          (by omega) (by omega)

theorem EdgeAdder.loop_gen_trace {S M A : Type _}
    [AddCommMonoid S] [AddCommMonoid M] [AddCommMonoid A] [Mul A]
    (m : EdgeAdder S M A) (bn : ℕ → ℕ → ℝ) (cn : ℕ → ℕ → ℕ → ℝ) (nn : List S) :
    ∀ (fuel ai : ℕ) (running : List Bool) (g : Graph S) (loss : ℝ)
      (g' : Graph S) (l' : ℝ),
      EdgeAdder.loop m bn cn none nn fuel ai running g loss = some (g', l') →
      ∃ trace : List (List Bool),
        g'.edge_dest = g.edge_dest ++
          trace.bind (fun r => selectMask r g.last_inserted_node) ∧
        (∀ r ∈ trace, ∀ b, r.getD b false = true → running.getD b false = true) ∧
        (∀ Mx, m.n_max_edges = some Mx → ai ≤ Mx → trace.length ≤ Mx - ai)
  | 0, ai, running, g, loss, g', l' => by
    intro h
    exact absurd h (by simp [EdgeAdder.loop])
  | fuel + 1, ai, running, g, loss, g', l' => by
    intro h
    obtain ⟨pb, pn, pnt, pes, ped, pef, pet, pom, plast, prun⟩ :=
      MultilayerPropagator.layers_preserve m.propagator g (some running)
    simp only [EdgeAdder.loop] at h
    split at h
    · -- the loop exits without appending
      simp only [Option.some.injEq, Prod.mk.injEq] at h
      obtain ⟨hg, -⟩ := h
      subst hg
      exact ⟨[], by simpa using ped, by simp, fun _ _ _ => by simp⟩
    · -- one block appended, then the loop recursed
      rename_i hcond
      obtain ⟨trace', htd, hsub, hcap⟩ :=
        EdgeAdder.loop_gen_trace m bn cn nn fuel (ai + 1) _ _ _ _ _ h
      refine ⟨List.zipWith (fun r n => r && n) running
        (EdgeAdder.gen_need m (bn ai) ai
          (List.zipWith (fun a n => m.f_addedge_aggregated a + m.f_addedge_new n)
            (m.edge_decision_aggregator.forward (m.propagator.forward g (some running))) nn))
        :: trace', ?_, ?_, ?_⟩
      · rw [htd]
        simp only [EdgeAdder.append_edges, List.cons_bind, List.append_assoc, ped, plast]
      · intro r hr b hb
        rcases List.mem_cons.1 hr with rfl | hr
        · exact zipWith_run_need_getD _ _ b hb
        · exact zipWith_run_need_getD _ _ b (hsub r hr b hb)
      · intro Mx hMx hai
        have hlt : ai < Mx := by
          by_contra hge
          apply hcond
          rw [EdgeAdder.gen_need, hMx]
          simp only [if_pos (by omega : Mx ≤ ai)]
          exact zipWith_and_false_any running _
        have := hcap Mx hMx (by omega)
        simp only [List.length_cons]
        omega

/-! ### Per-edge specification of the generation-mode edge loop -/

theorem EdgeAdder.loop_gen_spec {S M A : Type _}
    [AddCommMonoid S] [AddCommMonoid M] [AddCommMonoid A] [Mul A]
    (m : EdgeAdder S M A) (bn : ℕ → ℕ → ℝ) (cn : ℕ → ℕ → ℕ → ℝ) (nn : List S)
    (hT : 1 ≤ m.n_edge_dtypes)
    (hfs1 : ∀ s, (m.fs_layer1_target s).length = m.n_edge_dtypes)
    (hfs2 : ∀ s, (m.fs_layer1_new s).length = m.n_edge_dtypes) :
    ∀ (fuel ai : ℕ) (running : List Bool) (g : Graph S) (loss : ℝ)
      (g' : Graph S) (l' : ℝ),
      running.length = g.batch_size →
      g.batch_size ≤ nn.length →
      g.owner_masks.length = g.nodes.length →
      g.last_inserted_node.length = g.batch_size →
      g.edge_source.length = g.edge_dest.length →
      g.edge_features.length = g.edge_dest.length →
      g.edge_types.length = g.edge_dest.length →
      (∀ b, running.getD b false = true →
        ∃ j, j < g.owner_masks.length ∧ (g.owner_masks.getD j []).getD b false = true) →
      EdgeAdder.loop m bn cn none nn fuel ai running g loss = some (g', l') →
      ∀ k, g.edge_dest.length ≤ k → k < g'.edge_dest.length →
        ∃ b t, b < g.batch_size ∧ running.getD b false = true ∧
          g'.edge_dest.getD k 0 = g.last_inserted_node.getD b 0 ∧
          g'.edge_source.getD k 0 < g.nodes.length ∧
          (g.owner_masks.getD (g'.edge_source.getD k 0) []).getD b false = true ∧
          t < m.n_edge_dtypes ∧
          g'.edge_types.getD k 0 = t % 256 ∧
          g'.edge_features.getD k 0 = m.edge_init (t - 1)
  | 0, ai, running, g, loss, g', l' => by
    intro _ _ _ _ _ _ _ _ h
    exact absurd h (by simp [EdgeAdder.loop])
  | fuel + 1, ai, running, g, loss, g', l' => by
    intro hrl hnn hoc hlast hes hef het hown h k hk1 hk2
    obtain ⟨pb, pn, pnt, pes, ped, pef, pet, pom, plast, prun⟩ :=
      MultilayerPropagator.layers_preserve m.propagator g (some running)
    simp only [EdgeAdder.loop] at h
    split at h
    · -- exit without appending: no k in range
      simp only [Option.some.injEq, Prod.mk.injEq] at h
      obtain ⟨hg, -⟩ := h
      subst hg
      rw [ped] at hk2
      omega
    · rename_i hcond
      set g1 := m.propagator.forward g (some running) with hg1
      set scores := List.zipWith (fun a n => m.f_addedge_aggregated a + m.f_addedge_new n)
        (m.edge_decision_aggregator.forward g1) nn with hscores
      set need := EdgeAdder.gen_need m (bn ai) ai scores with hneed
      set running2 := List.zipWith (fun r n => r && n) running need with hrunning2
      set sel := EdgeAdder.gen_selected m (cn ai) g1 nn with hseld
      set g2 := EdgeAdder.append_edges m sel running2 g1 with hg2
      have hneedlen : need.length = g.batch_size := by
        rw [hneed, EdgeAdder.gen_need_length, hscores, List.length_zipWith,
          Aggregator.forward_length, pb]
        omega
      have hrun2len : running2.length = g.batch_size := by
        rw [hrunning2, List.length_zipWith, hrl, hneedlen]
        omega
      have hrun2sub : ∀ b, running2.getD b false = true → running.getD b false = true := by
        intro b hb
        rw [hrunning2] at hb
        exact zipWith_run_need_getD _ _ b hb
      have hsellen : sel.length = g.batch_size := by
        rw [hseld, EdgeAdder.gen_selected_length, pb]
      have hgb2 : g2.batch_size = g.batch_size := by
        simp only [hg2, EdgeAdder.append_edges]
        exact pb
      have hgn2 : g2.nodes = g1.nodes := by
        simp only [hg2, EdgeAdder.append_edges]
      have hgo2 : g2.owner_masks = g.owner_masks := by
        simp only [hg2, EdgeAdder.append_edges]
        exact pom
      have hglast2 : g2.last_inserted_node = g.last_inserted_node := by
        simp only [hg2, EdgeAdder.append_edges]
        exact plast
      obtain ⟨hd2, hs2, hf2, ht2, hentry⟩ := EdgeAdder.append_edges_spec m sel running2 g1
        (by rw [hrun2len, pb]) (by simp [hsellen, pb]) (by rw [plast, hlast, pb])
      rw [← hg2] at hd2 hs2 hf2 ht2 hentry
      rw [ped] at hd2
      rw [pes] at hs2
      rw [pef] at hf2
      rw [pet] at ht2
      obtain ⟨ib, inn, int, iom, ilast, irun, ⟨ds, hds⟩, ⟨ss, hss⟩, ⟨fs, hfsx⟩, ⟨ts, htsx⟩⟩ :=
        EdgeAdder.loop_preserves m bn cn none nn fuel _ _ _ _ _ _ h
      by_cases hk : k < g2.edge_dest.length
      · -- the edge was appended by this step
        have hk' : k - g.edge_dest.length < (trueIdxs 0 running2).length := by omega
        obtain ⟨b, hbb, hbrun2, hdestv, hsrcv, htyv, hfev⟩ := hentry _ hk'
        rw [ped, plast] at hdestv
        rw [pes] at hsrcv
        rw [pet] at htyv
        rw [pef] at hfev
        have hkd : g.edge_dest.length + (k - g.edge_dest.length) = k := by omega
        have hks : g.edge_source.length + (k - g.edge_dest.length) = k := by omega
        have hkt : g.edge_types.length + (k - g.edge_dest.length) = k := by omega
        have hkf : g.edge_features.length + (k - g.edge_dest.length) = k := by omega
        rw [hkd] at hdestv
        rw [hks] at hsrcv
        rw [hkt] at htyv
        rw [hkf] at hfev
        have hbb' : b < g.batch_size := by rwa [pb] at hbb
        have hbrun : running.getD b false = true := hrun2sub b hbrun2
        -- soundness of the selection for batch element b
        have hown1 : ∃ j, j < g1.owner_masks.length ∧
            (g1.owner_masks.getD j []).getD b false = true := by
          rw [pom]
          exact hown b hbrun
        have hsound := EdgeAdder.gen_selected_sound m (cn ai) g1 nn hT hfs1 hfs2
          (by rw [pom, pn]; exact hoc) b hbb hown1
        rw [← hseld] at hsound
        obtain ⟨hdivlt, hdivown, hmodlt⟩ := hsound
        -- transfer the final-list values across the recursion suffix
        have hdfin : g'.edge_dest.getD k 0 = g2.edge_dest.getD k 0 := by
          rw [hds]
          exact List.getD_append _ _ _ _ hk
        have hsfin : g'.edge_source.getD k 0 = g2.edge_source.getD k 0 := by
          rw [hss]
          exact List.getD_append _ _ _ _ (by omega)
        have htfin : g'.edge_types.getD k 0 = g2.edge_types.getD k 0 := by
          rw [htsx]
          exact List.getD_append _ _ _ _ (by omega)
        have hffin : g'.edge_features.getD k 0 = g2.edge_features.getD k 0 := by
          rw [hfsx]
          exact List.getD_append _ _ _ _ (by omega)
        refine ⟨b, sel.getD b 0 % m.n_edge_dtypes, hbb', hbrun, ?_, ?_, ?_, hmodlt, ?_, ?_⟩
        · rw [hdfin, hdestv]
        · rw [hsfin, hsrcv]
          rw [pn] at hdivlt
          exact hdivlt
        · rw [hsfin, hsrcv]
          rw [pom] at hdivown
          exact hdivown
        · rw [htfin, htyv]
        · rw [hffin, hfev]
      · -- the edge was appended by a later step: use the recursive call
        have ih := EdgeAdder.loop_gen_spec m bn cn nn hT hfs1 hfs2 fuel (ai + 1)
          running2 g2 _ g' l'
          (by rw [hrun2len, hgb2])
          (by rw [hgb2]; exact hnn)
          (by rw [hgo2, hgn2, pn]; exact hoc)
          (by rw [hglast2, hlast, hgb2])
          (by rw [hs2, hd2]; omega)
          (by rw [hf2, hd2]; omega)
          (by rw [ht2, hd2]; omega)
          (by
            intro b hb
            rw [hgo2]
            exact hown b (hrun2sub b hb))
          h k (by omega) hk2
        obtain ⟨b, t, hbb, hbrun2, hdv, hsv, hov, htlt, htv, hfv⟩ := ih
        refine ⟨b, t, by rwa [hgb2] at hbb, hrun2sub b hbrun2, ?_, ?_, ?_, htlt, htv, hfv⟩
        · rwa [hglast2] at hdv
        · rwa [hgn2, pn] at hsv
        · rwa [hgo2] at hov

/-! ### Claims C7 and C8 -/

theorem EdgeAdder.forward_gen_def {S M A : Type _}
    [AddCommMonoid S] [AddCommMonoid M] [AddCommMonoid A] [Mul A]
    (fuel : ℕ) (m : EdgeAdder S M A) (bn : ℕ → ℕ → ℝ) (cn : ℕ → ℕ → ℕ → ℝ) (g : Graph S) :
    EdgeAdder.forward fuel m bn cn g none =
      EdgeAdder.loop m bn cn none (g.last_inserted_node.map (fun i => g.nodes.getD i 0))
        fuel 0 g.running g 0 := rfl

/-- C7: every edge appended by a generation-mode EdgeAdder call has its
destination equal to the owning batch element's last_inserted_node, and its
source (the selected target node) strictly below the node count and owned by
that same batch element.  The ownership hypothesis (every running element owns
at least one node) is established by the NodeAdder call that precedes every
EdgeAdder invocation in the pass. -/
theorem claim_C7 {S M A : Type _}
    [AddCommMonoid S] [AddCommMonoid M] [AddCommMonoid A] [Mul A]
    (fuel : ℕ) (m : EdgeAdder S M A) (bn : ℕ → ℕ → ℝ) (cn : ℕ → ℕ → ℕ → ℝ)
    (g g' : Graph S) (l' : ℝ)
    (hT : 1 ≤ m.n_edge_dtypes)
    (hfs1 : ∀ s, (m.fs_layer1_target s).length = m.n_edge_dtypes)
    (hfs2 : ∀ s, (m.fs_layer1_new s).length = m.n_edge_dtypes)
    (hrl : g.running.length = g.batch_size)
    (hoc : g.owner_masks.length = g.nodes.length)
    (hlast : g.last_inserted_node.length = g.batch_size)
    (hes : g.edge_source.length = g.edge_dest.length)
    (hef : g.edge_features.length = g.edge_dest.length)
    (het : g.edge_types.length = g.edge_dest.length)
    (hown : ∀ b, g.running.getD b false = true →
      ∃ j, j < g.owner_masks.length ∧ (g.owner_masks.getD j []).getD b false = true)
    (h : EdgeAdder.forward fuel m bn cn g none = some (g', l')) :
    ∀ k, g.edge_dest.length ≤ k → k < g'.edge_dest.length →
      ∃ b, b < g.batch_size ∧ g.running.getD b false = true ∧
        g'.edge_dest.getD k 0 = g.last_inserted_node.getD b 0 ∧
        g'.edge_source.getD k 0 < g.nodes.length ∧
        (g.owner_masks.getD (g'.edge_source.getD k 0) []).getD b false = true := by
  intro k hk1 hk2
  rw [EdgeAdder.forward_gen_def] at h
  have hspec := EdgeAdder.loop_gen_spec m bn cn _ hT hfs1 hfs2 fuel 0 g.running g 0 g' l'
    hrl (by rw [List.length_map, hlast]) hoc hlast hes hef het hown h k hk1 hk2
  obtain ⟨b, t, hbb, hbrun, hdv, hsv, hov, -, -, -⟩ := hspec
  exact ⟨b, hbb, hbrun, hdv, hsv, hov⟩

/-- Amended C8: edge type 0 is not excluded by generation-mode sampling (the
mask only rules out non-owned target nodes, see the counterexample); every
appended edge records type t mod 256 for the sampled type t below
n_edge_dtypes, and its feature row is edge-type-embedding row t − 1 with
natural truncation at 0 — so a real type t ≥ 1 uses row t − 1, while a sampled
type 0 shares row 0. -/
theorem claim_C8 {S M A : Type _}
    [AddCommMonoid S] [AddCommMonoid M] [AddCommMonoid A] [Mul A]
    (fuel : ℕ) (m : EdgeAdder S M A) (bn : ℕ → ℕ → ℝ) (cn : ℕ → ℕ → ℕ → ℝ)
    (g g' : Graph S) (l' : ℝ)
    (hT : 1 ≤ m.n_edge_dtypes)
    (hfs1 : ∀ s, (m.fs_layer1_target s).length = m.n_edge_dtypes)
    (hfs2 : ∀ s, (m.fs_layer1_new s).length = m.n_edge_dtypes)
    (hrl : g.running.length = g.batch_size)
    (hoc : g.owner_masks.length = g.nodes.length)
    (hlast : g.last_inserted_node.length = g.batch_size)
    (hes : g.edge_source.length = g.edge_dest.length)
    (hef : g.edge_features.length = g.edge_dest.length)
    (het : g.edge_types.length = g.edge_dest.length)
    (hown : ∀ b, g.running.getD b false = true →
      ∃ j, j < g.owner_masks.length ∧ (g.owner_masks.getD j []).getD b false = true)
    (h : EdgeAdder.forward fuel m bn cn g none = some (g', l')) :
    ∀ k, g.edge_dest.length ≤ k → k < g'.edge_dest.length →
      ∃ t, t < m.n_edge_dtypes ∧ g'.edge_types.getD k 0 = t % 256 ∧
        g'.edge_features.getD k 0 = m.edge_init (t - 1) := by
  intro k hk1 hk2
  rw [EdgeAdder.forward_gen_def] at h
  have hspec := EdgeAdder.loop_gen_spec m bn cn _ hT hfs1 hfs2 fuel 0 g.running g 0 g' l'
    hrl (by rw [List.length_map, hlast]) hoc hlast hes hef het hown h k hk1 hk2
  obtain ⟨b, t, -, -, -, -, -, htlt, htv, hfv⟩ := hspec
  exact ⟨t, htlt, htv, hfv⟩

/-! ### Orchestrator bounds (claim C6) -/

/-- Number of nodes owned by batch element b. -/
def ownedCount {S : Type _} (g : Graph S) (b : ℕ) : ℕ :=
  g.owner_masks.countP (fun col => col.getD b false)

theorem GraphGen.loopGen_spec {S M A : Type _}
    [AddCommMonoid S] [AddCommMonoid M] [AddCommMonoid A] [Mul A]
    (gg : GraphGen S M A) (nodeNoise : ℕ → ℕ → ℕ → ℝ) (binNoise : ℕ → ℕ → ℕ → ℝ)
    (catNoise : ℕ → ℕ → ℕ → ℕ → ℝ) (K Mx : ℕ)
    (hK : gg.n_max_nodes = some K) (hM : gg.edge_adder.n_max_edges = some Mx) :
    ∀ (fuel rounds : ℕ) (g : Graph S) (loss : ℝ),
      rounds ≤ K → K < rounds + fuel →
      g.running.length = g.batch_size →
      g.last_inserted_node.length = g.batch_size →
      ∃ g' l',
        GraphGen.loopGen gg nodeNoise binNoise catNoise (Mx + 1) fuel (2 * rounds) g loss =
          some (g', l') ∧
        ∀ b, ownedCount g' b ≤ ownedCount g b + (K - rounds)
  | 0, rounds, g, loss => by
    intro h1 h2 _ _
    omega
  | fuel + 1, rounds, g, loss => by
    intro hrK hKf hrun hlast
    simp only [GraphGen.loopGen, hK, Nat.mul_div_cancel_left _ (by omega : 0 < 2)]
    by_cases hcap : K ≤ rounds
    · simp only [decide_eq_true hcap, if_true]
      refine ⟨g, loss, rfl, fun b => ?_⟩
      omega
    · simp only [decide_eq_false hcap, Bool.false_eq_true, if_false]
      obtain ⟨sb, srl, sll, sor, -⟩ := NodeAdder.forward_spec gg.node_adder
        (nodeNoise (2 * rounds)) g none hrun (fun r hr => by simp at hr)
      have hcount : ∀ b, ownedCount (gg.node_adder.forward (nodeNoise (2 * rounds)) g none).1 b ≤
          ownedCount g b + 1 := by
        intro b
        rcases sor with hor | hor
        · simp only [ownedCount, hor]
          omega
        · have := countP_oneHot_append g.batch_size b
            (gg.node_adder.forward (nodeNoise (2 * rounds)) g none).1.running
          simp only [ownedCount, hor, List.countP_append]
          omega
      by_cases hstop : ((gg.node_adder.forward (nodeNoise (2 * rounds)) g none).1.running.any
          (fun x => x)) = false
      · simp only [if_pos hstop]
        refine ⟨_, _, rfl, fun b => ?_⟩
        have := hcount b
        omega
      · simp only [if_neg hstop]
        have hterm := EdgeAdder.loop_gen_terminates gg.edge_adder (binNoise (2 * rounds))
          (catNoise (2 * rounds))
          ((gg.node_adder.forward (nodeNoise (2 * rounds)) g none).1.last_inserted_node.map
            (fun i => (gg.node_adder.forward (nodeNoise (2 * rounds)) g none).1.nodes.getD i 0))
          Mx hM (Mx + 1) 0
          (gg.node_adder.forward (nodeNoise (2 * rounds)) g none).1.running
          (gg.node_adder.forward (nodeNoise (2 * rounds)) g none).1 0 (by omega) (by omega)
        rw [← EdgeAdder.forward_gen_def] at hterm
        obtain ⟨⟨g2, l2⟩, hg2⟩ := Option.isSome_iff_exists.1 hterm
        obtain ⟨eb, en, ent, eom, elast, erun⟩ :=
          EdgeAdder.forward_preserves _ _ _ _ _ _ _ _ hg2
        simp only [hg2]
        have harith : 2 * rounds + 2 = 2 * (rounds + 1) := by ring
        rw [harith]
        obtain ⟨g', l', hloop, hcounts⟩ := GraphGen.loopGen_spec gg nodeNoise binNoise
          catNoise K Mx hK hM fuel (rounds + 1) g2
          (loss + (gg.node_adder.forward (nodeNoise (2 * rounds)) g none).2 + l2)
          (by omega) (by omega)
          (by rw [erun, srl, eb, sb])
          (by rw [elast, sll, hlast, eb, sb])
        refine ⟨g', l', hloop, fun b => ?_⟩
        have hc2 : ownedCount g2 b =
            ownedCount (gg.node_adder.forward (nodeNoise (2 * rounds)) g none).1 b := by
          rw [ownedCount, ownedCount, eom]
        have := hcounts b
        have := hcount b
        omega

/-- C6: with a node cap K configured, the generation pass runs to completion
within outer fuel K+1 — the cap check stops it after at most K NodeAdder
rounds — and every batch element owns at most K nodes of the final graph; with
an edge cap M configured, every generation-mode EdgeAdder invocation
terminates within fuel M+1 and its appended edges decompose into at most M
per-step blocks holding at most one edge per batch element each, so at most M
edges are appended per batch element per invocation. -/
theorem claim_C6 {S M A : Type _}
    [AddCommMonoid S] [AddCommMonoid M] [AddCommMonoid A] [Mul A]
    (gg : GraphGen S M A) (nodeNoise : ℕ → ℕ → ℕ → ℝ) (binNoise : ℕ → ℕ → ℕ → ℝ)
    (catNoise : ℕ → ℕ → ℕ → ℕ → ℝ) (K Mx batch : ℕ)
    (hK : gg.n_max_nodes = some K) (hM : gg.edge_adder.n_max_edges = some Mx) :
    (∃ g' l', GraphGen.forwardGen gg nodeNoise binNoise catNoise (Mx + 1) (K + 1) batch
        = some (g', l') ∧ ∀ b, ownedCount g' b ≤ K) ∧
    (∀ (bn : ℕ → ℕ → ℝ) (cn : ℕ → ℕ → ℕ → ℝ) (g : Graph S),
      (gg.edge_adder.forward (Mx + 1) bn cn g none).isSome = true) ∧
    (∀ (bn : ℕ → ℕ → ℝ) (cn : ℕ → ℕ → ℕ → ℝ) (g g' : Graph S) (l' : ℝ),
      gg.edge_adder.forward (Mx + 1) bn cn g none = some (g', l') →
      ∃ trace : List (List Bool), trace.length ≤ Mx ∧
        g'.edge_dest = g.edge_dest ++
          trace.bind (fun r => selectMask r g.last_inserted_node) ∧
        ∀ b, trace.countP (fun r => r.getD b false) ≤ Mx) := by
  refine ⟨?_, ?_, ?_⟩
  · obtain ⟨g', l', hloop, hcounts⟩ := GraphGen.loopGen_spec gg nodeNoise binNoise catNoise
      K Mx hK hM (K + 1) 0 (Graph.init S batch) 0 (by omega) (by omega)
      (by simp [Graph.init]) (by simp [Graph.init])
    refine ⟨g', l', ?_, fun b => ?_⟩
    · rw [GraphGen.forwardGen]
      simpa using hloop
    · have := hcounts b
      simp only [ownedCount, Graph.init, List.countP_nil] at this ⊢
      omega
  · intro bn cn g
    rw [EdgeAdder.forward_gen_def]
    exact EdgeAdder.loop_gen_terminates gg.edge_adder bn cn _ Mx hM (Mx + 1) 0
      g.running g 0 (by omega) (by omega)
  · intro bn cn g g' l' h
    rw [EdgeAdder.forward_gen_def] at h
    obtain ⟨trace, hdest, hsub, hcap⟩ :=
      EdgeAdder.loop_gen_trace gg.edge_adder bn cn _ (Mx + 1) 0 g.running g 0 g' l' h
    have hlen : trace.length ≤ Mx := by
      have := hcap Mx hM (by omega)
      omega
    refine ⟨trace, hlen, hdest, fun b => ?_⟩
    exact le_trans (List.countP_le_length _) hlen

/-- Concrete NodeAdder over the integers. -/
def nodeZ : NodeAdder ℤ ℤ ℤ :=
  { pad_char := 255
    propagator := []
    decision_aggregator := aggZ
    init_aggregator := aggZ
    node_type_decision := fun _ => [0, 0]
    node_type_embedding := fun _ => 0
    f_init_part1 := fun s => s
    f_init_part2 := fun _ => 0 }

/-- Concrete EdgeAdder with edge cap 0. -/
def edgeZcap : EdgeAdder ℤ ℤ ℤ := { edgeZ with n_max_edges := some 0 }

/-- Concrete orchestrator with node cap 0 and edge cap 0. -/
def ggZ : GraphGen ℤ ℤ ℤ :=
  { n_max_nodes := some 0
    edge_adder := edgeZcap
    node_adder := nodeZ }

/-- Witness for claim_C6 at a concrete capped configuration. -/
theorem claim_C6_witness :
    (∃ g' l', GraphGen.forwardGen ggZ (fun _ _ _ => 0) (fun _ _ _ => 0) (fun _ _ _ _ => 0)
        (0 + 1) (0 + 1) 1 = some (g', l') ∧ ∀ b, ownedCount g' b ≤ 0) ∧
    (∀ (bn : ℕ → ℕ → ℝ) (cn : ℕ → ℕ → ℕ → ℝ) (g : Graph ℤ),
      (ggZ.edge_adder.forward (0 + 1) bn cn g none).isSome = true) ∧
    (∀ (bn : ℕ → ℕ → ℝ) (cn : ℕ → ℕ → ℕ → ℝ) (g g' : Graph ℤ) (l' : ℝ),
      ggZ.edge_adder.forward (0 + 1) bn cn g none = some (g', l') →
      ∃ trace : List (List Bool), trace.length ≤ 0 ∧
        g'.edge_dest = g.edge_dest ++
          trace.bind (fun r => selectMask r g.last_inserted_node) ∧
        ∀ b, trace.countP (fun r => r.getD b false) ≤ 0) :=
  claim_C6 ggZ (fun _ _ _ => 0) (fun _ _ _ => 0) (fun _ _ _ _ => 0) 0 0 1 rfl rfl

/-! ### Concrete evaluation helpers -/

theorem argmaxFirst_bot_zero : argmaxFirst [⊥, (0 : WithBot ℝ)] = 1 := by
  have h0 : decide (∀ z ∈ [(⊥ : WithBot ℝ), (0 : WithBot ℝ)], z ≤ ⊥) = false := by
    refine decide_eq_false ?_
    intro hall
    have := hall (0 : WithBot ℝ) (by simp)
    rw [le_bot_iff] at this
    rw [← WithBot.coe_zero] at this
    exact WithBot.coe_ne_bot this
  have h1 : decide (∀ z ∈ [(⊥ : WithBot ℝ), (0 : WithBot ℝ)], z ≤ (0 : WithBot ℝ)) = true := by
    refine decide_eq_true ?_
    intro z hz
    rcases List.mem_cons.1 hz with rfl | hz
    · exact bot_le
    · rcases List.mem_cons.1 hz with rfl | hz
      · exact le_refl _
      · simp at hz
  rw [argmaxFirst]
  simp only [List.findIdx_cons, h0, h1, cond_false, cond_true]

theorem sample_bot_pair : sample_softmax (fun _ => (0 : ℝ)) [⊥, (0 : WithBot ℝ)] = 1 := by
  rw [sample_softmax_eq_argmax]
  have hlist : addNoise (fun _ => (0 : ℝ)) [⊥, (0 : WithBot ℝ)] = [⊥, (0 : WithBot ℝ)] := by
    simp [addNoise]
  rw [hlist, argmaxFirst_bot_zero]

theorem msm_pair_zero : masked_softmax (fun _ => (0 : ℝ)) [0, 0] [true, true] = 0 := by
  rw [masked_softmax, sample_softmax_eq_argmax]
  have hlist : addNoise (fun _ => (0 : ℝ)) (mask_softmax_input [0, 0] [true, true]) =
      [(0 : WithBot ℝ), 0] := by
    simp [mask_softmax_input, addNoise]
  rw [hlist]
  refine argmaxFirst_const _ 0 ?_
  intro y hy
  rcases List.mem_cons.1 hy with rfl | hy
  · rfl
  · rcases List.mem_cons.1 hy with rfl | hy
    · rfl
    · simp at hy

/-- Trivial aggregator over the rationals (no bias). -/
def aggQ0 : Aggregator ℚ ℚ :=
  { transform := fun _ => 0
    gate := fun _ => 0
    bias_if_empty := none
    drop := fun _ x => x }

/-- Aggregator over the rationals with the learned empty-graph bias. -/
def aggQb : Aggregator ℚ ℚ :=
  { transform := fun _ => 0
    gate := fun _ => 0
    bias_if_empty := some 0
    drop := fun _ x => x }

/-- Concrete EdgeAdder over the rationals: two edge types, no cap,
constant-zero layers. -/
noncomputable def edgeQ : EdgeAdder ℚ ℚ ℚ :=
  { pad_char := 255
    n_edge_dtypes := 2
    n_max_edges := none
    propagator := []
    edge_decision_aggregator := aggQ0
    edge_init := fun _ => 0
    edge_init_aggregator := aggQ0
    f_addedge_aggregated := fun _ => 0
    f_addedge_new := fun _ => 0
    fs_layer1_target := fun _ => [0, 0]
    fs_layer1_new := fun _ => [0, 0] }

/-- Concrete one-node graph over the rationals, batch size 1. -/
def gQ1 : Graph ℚ :=
  { batch_size := 1
    nodes := [0]
    node_types := [0]
    edge_source := []
    edge_dest := []
    edge_features := []
    edge_types := []
    owner_masks := [[true]]
    last_inserted_node := [0]
    running := [true] }

/-- A generation-mode EdgeAdder call on gQ1 whose very first Bernoulli draw
declines to add an edge, so the loop stops immediately. -/
theorem edgeQ_stop_run :
    EdgeAdder.forward 1 edgeQ (fun _ _ => 1) (fun _ _ _ => 0) gQ1 none = some (gQ1, 0) := by
  have hd1 : decide ((1 : ℝ) < sigmoid 0) = false := decide_eq_false sigmoid_zero_lt_one
  rw [EdgeAdder.forward_gen_def]
  simp [EdgeAdder.loop, EdgeAdder.gen_need, MultilayerPropagator.forward, Aggregator.forward,
    sample_binary, mapWithIdx, edgeQ, aggQ0, gQ1, hd1]

/-- Every running batch element of gQ1 owns a node. -/
theorem gQ1_own : ∀ b, gQ1.running.getD b false = true →
    ∃ j, j < gQ1.owner_masks.length ∧ (gQ1.owner_masks.getD j []).getD b false = true := by
  intro b hb
  match b with
  | 0 => exact ⟨0, by decide, rfl⟩
  | b + 1 => simp [gQ1] at hb

/-- The graph gQ1 after one appended self-loop edge of type 0. -/
def gQ2 : Graph ℚ :=
  { gQ1 with
    edge_source := [0]
    edge_dest := [0]
    edge_features := [0]
    edge_types := [0] }

/-- A generation-mode EdgeAdder call on gQ1 whose first Bernoulli draw accepts
and second declines: exactly one edge is recorded, with sampled flat index 0,
hence target node 0 and edge type 0. -/
theorem edgeQ_add_run :
    EdgeAdder.forward 2 edgeQ (fun ai _ => if ai = 0 then 0 else 1) (fun _ _ _ => 0)
      gQ1 none = some (gQ2, 0) := by
  have hd0 : decide ((0 : ℝ) < sigmoid 0) = true := decide_eq_true sigmoid_zero_gt
  have hd1 : decide ((1 : ℝ) < sigmoid 0) = false := decide_eq_false sigmoid_zero_lt_one
  rw [EdgeAdder.forward_gen_def]
  simp [EdgeAdder.loop, EdgeAdder.gen_need, EdgeAdder.gen_selected, EdgeAdder.edge_logits,
    EdgeAdder.edge_mask, owner_row, EdgeAdder.append_edges, MultilayerPropagator.forward,
    Aggregator.forward, sample_binary, mapWithIdx, selectMask, List.replicate,
    edgeQ, aggQ0, gQ1, gQ2, hd0, hd1, msm_pair_zero]

/-- Witness for claim_C7: on the concrete run edgeQ_add_run, the one appended
edge has destination 0 (the last inserted node of batch element 0), source 0
below the node count, owned by batch element 0. -/
theorem claim_C7_witness :
    1 ≤ edgeQ.n_edge_dtypes ∧
    (∀ k, gQ1.edge_dest.length ≤ k → k < gQ2.edge_dest.length →
      ∃ b, b < gQ1.batch_size ∧ gQ1.running.getD b false = true ∧
        gQ2.edge_dest.getD k 0 = gQ1.last_inserted_node.getD b 0 ∧
        gQ2.edge_source.getD k 0 < gQ1.nodes.length ∧
        (gQ1.owner_masks.getD (gQ2.edge_source.getD k 0) []).getD b false = true) :=
  ⟨by decide,
    claim_C7 2 edgeQ (fun ai _ => if ai = 0 then 0 else 1) (fun _ _ _ => 0) gQ1 gQ2 0
      (by decide) (fun _ => rfl) (fun _ => rfl) rfl rfl rfl rfl rfl rfl gQ1_own
      edgeQ_add_run⟩

/-- claim_C8 counterexample: a generation-mode EdgeAdder call records an edge
of type 0, and a training-mode call whose reference holds a type-0 edge also
records it verbatim (reference edge types pass through remap_pad with the
identity transform, not a +1 shift) — refuting the original claim that edge
type 0 is never recorded in either mode. -/
theorem claim_C8_counterexample :
    (EdgeAdder.forward 2 edgeQ (fun ai _ => if ai = 0 then 0 else 1) (fun _ _ _ => 0)
        gQ1 none).map (fun r => r.1.edge_types) = some [0] ∧
    (EdgeAdder.forward 2 edgeQ (fun _ _ => 1) (fun _ _ _ => 0)
        gQ1 (some [([0], [0]), ([0], [255])])).map (fun r => r.1.edge_types) = some [0] := by
  constructor
  · rw [edgeQ_add_run]
    rfl
  · simp [EdgeAdder.forward, EdgeAdder.loop, EdgeAdder.append_edges, remap_pad,
      MultilayerPropagator.forward, selectMask, List.get?_cons_zero, List.get?_cons_succ,
      edgeQ, gQ1]

/-- Witness for claim_C8 on the concrete run edgeQ_add_run: the one appended
edge records sampled type 0 as byte 0 with feature row edge_init (0 - 1)
= edge_init 0. -/
theorem claim_C8_witness :
    gQ1.running.length = gQ1.batch_size ∧
    (∀ k, gQ1.edge_dest.length ≤ k → k < gQ2.edge_dest.length →
      ∃ t, t < edgeQ.n_edge_dtypes ∧ gQ2.edge_types.getD k 0 = t % 256 ∧
        gQ2.edge_features.getD k 0 = edgeQ.edge_init (t - 1)) :=
  ⟨rfl,
    claim_C8 2 edgeQ (fun ai _ => if ai = 0 then 0 else 1) (fun _ _ _ => 0) gQ1 gQ2 0
      (by decide) (fun _ => rfl) (fun _ => rfl) rfl rfl rfl rfl rfl rfl gQ1_own
      edgeQ_add_run⟩

/-- Through the generation loop, nodes and node_types stay parallel: the
continuous node-state rows are extended in lockstep with the node-type bytes
and never dropped. -/
theorem GraphGen.loopGen_nodes_types {S M A : Type _}
    [AddCommMonoid S] [AddCommMonoid M] [AddCommMonoid A] [Mul A]
    (gg : GraphGen S M A) (nodeNoise : ℕ → ℕ → ℕ → ℝ) (binNoise : ℕ → ℕ → ℕ → ℝ)
    (catNoise : ℕ → ℕ → ℕ → ℕ → ℝ) (edgeFuel : ℕ) :
    ∀ (fuel i : ℕ) (g : Graph S) (loss : ℝ) (g' : Graph S) (l' : ℝ),
      g.running.length = g.batch_size →
      g.nodes.length = g.node_types.length →
      GraphGen.loopGen gg nodeNoise binNoise catNoise edgeFuel fuel i g loss =
        some (g', l') →
      g'.nodes.length = g'.node_types.length
  | 0, i, g, loss, g', l' => by
    intro _ _ h
    exact absurd h (by simp [GraphGen.loopGen])
  | fuel + 1, i, g, loss, g', l' => by
    intro hrun hnt h
    simp only [GraphGen.loopGen] at h
    by_cases hcap : (match gg.n_max_nodes with
        | some k => decide (k ≤ i / 2) | none => false) = true
    · rw [if_pos hcap] at h
      simp only [Option.some.injEq, Prod.mk.injEq] at h
      obtain ⟨hg, -⟩ := h
      subst hg
      exact hnt
    · rw [if_neg hcap] at h
      obtain ⟨sb, srl, -, -, ⟨k, hkn, hknt⟩⟩ := NodeAdder.forward_spec gg.node_adder
        (nodeNoise i) g none hrun (fun r hr => by simp at hr)
      by_cases hstop : ((gg.node_adder.forward (nodeNoise i) g none).1.running.any
          (fun x => x)) = false
      · rw [if_pos hstop] at h
        simp only [Option.some.injEq, Prod.mk.injEq] at h
        obtain ⟨hg, -⟩ := h
        subst hg
        omega
      · rw [if_neg hstop] at h
        split at h
        · exact absurd h (by simp)
        · rename_i g2 l2 heq
          obtain ⟨eb, en, ent, -, -, erun⟩ := EdgeAdder.forward_preserves _ _ _ _ _ _ _ _ heq
          refine GraphGen.loopGen_nodes_types gg nodeNoise binNoise catNoise edgeFuel fuel
            (i + 2) g2 _ g' l' (by rw [erun, srl, eb, sb]) ?_ h
          rw [en, congrArg List.length ent]
          omega

/-- Amended C2: generate returns the full final Graph of the generation pass —
the continuous node-state rows are kept in lockstep with the node-type bytes,
not discarded — and the topology fields of that Graph are exactly what
get_final_graph would project out; generate itself never calls
get_final_graph. -/
theorem claim_C2 {S M A : Type _}
    [AddCommMonoid S] [AddCommMonoid M] [AddCommMonoid A] [Mul A]
    (gg : GraphGen S M A) (nodeNoise : ℕ → ℕ → ℕ → ℝ) (binNoise : ℕ → ℕ → ℕ → ℝ)
    (catNoise : ℕ → ℕ → ℕ → ℕ → ℝ) (edgeFuel fuel batch : ℕ) (g : Graph S)
    (h : GraphGen.generate gg nodeNoise binNoise catNoise edgeFuel fuel batch = some g) :
    g.nodes.length = g.node_types.length ∧
    g.get_final_graph =
      { batch_size := g.batch_size
        node_types := g.node_types
        edge_source := g.edge_source
        edge_dest := g.edge_dest
        edge_types := g.edge_types
        owner_masks := g.owner_masks } := by
  refine ⟨?_, rfl⟩
  rw [GraphGen.generate, GraphGen.forwardGen] at h
  obtain ⟨⟨g1, l1⟩, hl, hfst⟩ := Option.map_eq_some'.1 h
  cases hfst
  exact GraphGen.loopGen_nodes_types gg nodeNoise binNoise catNoise edgeFuel fuel 0
    (Graph.init S batch) 0 g1 l1 (by simp [Graph.init]) rfl hl

/-- Witness for claim_C2 at the concrete capped configuration ggZ, whose
generation run returns the empty graph immediately. -/
theorem claim_C2_witness :
    (Graph.init ℤ 1).nodes.length = (Graph.init ℤ 1).node_types.length ∧
    (Graph.init ℤ 1).get_final_graph =
      { batch_size := (Graph.init ℤ 1).batch_size
        node_types := (Graph.init ℤ 1).node_types
        edge_source := (Graph.init ℤ 1).edge_source
        edge_dest := (Graph.init ℤ 1).edge_dest
        edge_types := (Graph.init ℤ 1).edge_types
        owner_masks := (Graph.init ℤ 1).owner_masks } :=
  claim_C2 ggZ (fun _ _ _ => 0) (fun _ _ _ => 0) (fun _ _ _ _ => 0) 1 1 1
    (Graph.init ℤ 1) rfl

/-- Concrete NodeAdder over the rationals whose embedding of the sampled node
type is the state 37. -/
noncomputable def nodeQ : NodeAdder ℚ ℚ ℚ :=
  { pad_char := 255
    propagator := []
    decision_aggregator := aggQb
    init_aggregator := aggQb
    node_type_decision := fun _ => [0, 0]
    node_type_embedding := fun _ => 37
    f_init_part1 := fun s => s
    f_init_part2 := fun _ => 0 }

/-- Concrete orchestrator: node cap 1, and Bernoulli noise that declines every
edge, so one generation round adds exactly one node and stops. -/
noncomputable def ggQ : GraphGen ℚ ℚ ℚ :=
  { n_max_nodes := some 1
    edge_adder := edgeQ
    node_adder := nodeQ }

/-- claim_C2 counterexample: a successful generate call whose returned graph
still carries the continuous node-state row 37 — refuting the original claim
that generate discards the continuous feature tensors via get_final_graph. -/
theorem claim_C2_counterexample :
    (GraphGen.generate ggQ (fun _ _ _ => 0) (fun _ _ _ => 1) (fun _ _ _ _ => 0) 1 2 1).map
      (fun g => g.nodes) = some [(37 : ℚ)] := by
  have hd1 : decide ((1 : ℝ) < sigmoid 0) = false := decide_eq_false sigmoid_zero_lt_one
  have hne : decide ((1 : ℕ) ≠ 0) = true := by decide
  rw [GraphGen.generate, GraphGen.forwardGen]
  simp [GraphGen.loopGen, Graph.init, NodeAdder.forward, NodeAdder.gen_select,
    Aggregator.forward, MultilayerPropagator.forward, EdgeAdder.forward, EdgeAdder.loop,
    EdgeAdder.gen_need, sample_binary, mapWithIdx, selectMask, trueIdxs, oneHot,
    scatterArange, List.replicate, sample_bot_pair, hd1, hne, ggQ, nodeQ, edgeQ, aggQb,
    aggQ0]

end GraphGenModel
